import Mathlib

/-!
Shallow embedding of the graph layout and interaction core of the
corkboard investigation view (`CorkBoard`/`PinnedPhoto` components):
reachability/depth reduction (`buildLayout`'s BFS), radial ring layout,
yarn connector geometry, pan/zoom viewport state, and the selection
lineage walk (`edgeByTo` / `lineageNodeIds` / `lineageEdgeKeys`).

JS objects used as string-keyed dictionaries are modelled as functions
`String → Option _`; JS `Set`s used only for membership are modelled by
the characteristic predicate of what was inserted.  The `reachableIds`
set in the source is maintained in lockstep with the keys of the `depth`
object (both are seeded with `source.id` and extended together in the
same branch), so membership in `reachableIds` is modelled as the depth
map being defined.  Loops are modelled with an explicit iteration budget
(`fuel`) large enough to cover every run; the theorems below include the
facts showing the budget is never exhausted (fuel-independence /
characterisation of the result).
-/

namespace SpreadCore

/-- A graph node.  Only the `id` field is consulted by the layout and
lineage algorithms; the display fields (`label`, `platform`, `date`,
`url`) never influence the computations modelled here and are omitted. -/
structure Node where
  id : String
deriving DecidableEq

/-- A directed edge.  The JS fields are `from`/`to` (`from` is a Lean
keyword, hence `fromId`/`toId`); either may be absent in raw data, which
is modelled with `Option`.  `affinity`/`inferred` only affect styling and
are omitted. -/
structure Edge where
  fromId : Option String
  toId : Option String
deriving DecidableEq

/-- The `spreadData` contract: `{ source, nodes, edges }` (`summary` is
only displayed, never used by the algorithms).  `source` is `Option` so
that a graph missing its `source` can be expressed. -/
structure Graph where
  source : Option Node
  nodes : List Node
  edges : List Edge
deriving DecidableEq

/-- JS truthiness of an optional string field: present and non-empty. -/
def truthy : Option String → Bool
  | none => false
  | some s => s ≠ ""

/-- Key set of `nodeById = Object.fromEntries(nodes.map(n => [n.id, n]))`:
`!nodeById[x]` is falsy exactly when `x` is one of the node ids. -/
def nodeIds (g : Graph) : List String :=
  g.nodes.map Node.id

/-- The adjacency lists built by
`for (const e of edges) { if (!e?.from || !e?.to) continue; children[e.from].push(e.to) }`:
`childrenOf edges a` is the list `children[a]`, in edge input order. -/
def childrenOf (edges : List Edge) (a : String) : List String :=
  edges.filterMap fun e =>
    match e.fromId, e.toId with
    | some f, some t => if f ≠ "" ∧ t ≠ "" ∧ f = a then some t else none
    | _, _ => none

/-- Inner loop of the BFS over `children[cur]`: each child that is a
known node id and not yet in the depth map is assigned depth `d1` and
appended to the queue (`queue.push(child)`); others are skipped. -/
def enqueueChildren (ids : List String) (d1 : Nat) :
    List String → List String → (String → Option Nat) →
    List String × (String → Option Nat)
  | [], queue, depth => (queue, depth)
  | c :: cs, queue, depth =>
    if c ∈ ids ∧ depth c = none then
      enqueueChildren ids d1 cs (queue ++ [c]) fun s => if s = c then some d1 else depth s
    else
      enqueueChildren ids d1 cs queue depth

/-- Number of known node ids not yet in the depth map (used to bound the
number of BFS iterations). -/
def unseenCount (ids : List String) (depth : String → Option Nat) : Nat :=
  (ids.dedup.filter fun s => (depth s).isNone).length

/-- The BFS `while (queue.length > 0)` loop: pop the front of the queue
(`queue.shift()`), enqueue its unvisited children at depth
`depth[cur] + 1`, repeat.  `fuel` bounds the number of iterations; every
queue entry already has a depth when popped, so `getD 0` never supplies
its default on a run started from `depthFrom`. -/
def bfsLoop (children : String → List String) (ids : List String) :
    Nat → List String → (String → Option Nat) → (String → Option Nat)
  | 0, _, depth => depth
  | _ + 1, [], depth => depth
  | fuel + 1, cur :: rest, depth =>
    let next := enqueueChildren ids ((depth cur).getD 0 + 1) (children cur) rest depth
    bfsLoop children ids fuel next.1 next.2

/-- Iteration budget: the loop runs at most `1 + ids.dedup.length` pops
plus the final empty-queue check, see `bfsLoop_measure` below. -/
def bfsFuel (g : Graph) : Nat :=
  2 + 2 * (nodeIds g).dedup.length

/-- The depth map produced by the BFS of `buildLayout`, starting from
`depth = { [srcId]: 0 }` and `queue = [srcId]`. -/
def depthFrom (g : Graph) (srcId : String) : String → Option Nat :=
  bfsLoop (childrenOf g.edges) (nodeIds g) (bfsFuel g) [srcId]
    fun s => if s = srcId then some (0 : Nat) else none

/-- `visibleNodes = nodes.filter(n => reachableIds.has(n.id))`. -/
def visibleNodesOf (g : Graph) (srcId : String) : List Node :=
  g.nodes.filter fun n => (depthFrom g srcId n.id).isSome

/-- `reachableIds.has` applied to a raw (possibly missing) edge endpoint:
a missing endpoint is never an element of the id set. -/
def idReachable (dep : String → Option Nat) : Option String → Bool
  | none => false
  | some x => (dep x).isSome

/-- `visibleEdges = edges.filter(e => reachableIds.has(e.from) && reachableIds.has(e.to))`. -/
def visibleEdgesOf (g : Graph) (srcId : String) : List Edge :=
  g.edges.filter fun e =>
    idReachable (depthFrom g srcId) e.fromId && idReachable (depthFrom g srcId) e.toId

/-- A directed path of length `k` from `src`, stepping along the kept
adjacency lists (`childrenOf`) and only onto known node ids — exactly
the hops the BFS can take (edges with a falsy endpoint, or whose target
is not a known node id, are dropped; see spec §4.1). -/
inductive ReachN (children : String → List String) (ids : List String) (src : String) :
    String → Nat → Prop where
  | refl : ReachN children ids src src 0
  | tail {m n : String} {k : Nat} :
      ReachN children ids src m k → n ∈ children m → n ∈ ids →
      ReachN children ids src n (k + 1)

/-- The BFS loop invariant: every queue entry has a depth; the source
has depth `0`; depths are only given to the source or known node ids;
every depth is realised by a path of exactly that length; queue depths
are non-decreasing; every assigned depth is at most the front depth plus
one; and every labelled node is either still queued or has all its kept
children labelled with a depth at most one more than its own. -/
structure BfsInv (children : String → List String) (ids : List String) (src : String)
    (queue : List String) (depth : String → Option Nat) : Prop where
  qlab : ∀ x ∈ queue, (depth x).isSome
  srcZero : depth src = some 0
  dom : ∀ x, (depth x).isSome → x = src ∨ x ∈ ids
  sound : ∀ x dx, depth x = some dx → ReachN children ids src x dx
  sortedQ : queue.Pairwise fun a b => (depth a).getD 0 ≤ (depth b).getD 0
  bound : ∀ x dx y, depth x = some dx → queue.head? = some y →
    dx ≤ (depth y).getD 0 + 1
  closed : ∀ m dm, depth m = some dm → m ∈ queue ∨
    ∀ c ∈ children m, c ∈ ids → ∃ dc, depth c = some dc ∧ dc ≤ dm + 1

/-- What survives of the invariant once the queue is empty. -/
structure BfsFinal (children : String → List String) (ids : List String) (src : String)
    (depth : String → Option Nat) : Prop where
  srcZero : depth src = some 0
  dom : ∀ x, (depth x).isSome → x = src ∨ x ∈ ids
  sound : ∀ x dx, depth x = some dx → ReachN children ids src x dx
  closedAll : ∀ m dm, depth m = some dm → ∀ c ∈ children m, c ∈ ids →
    ∃ dc, depth c = some dc ∧ dc ≤ dm + 1

/-! ### Radial layout -/

/-- Board constants from `CorkBoard`/`PinnedPhoto`. -/
noncomputable def BOARD_W : ℝ := 2000

noncomputable def BOARD_H : ℝ := 1600

noncomputable def CENTER_X : ℝ := BOARD_W / 2

noncomputable def CENTER_Y : ℝ := BOARD_H / 2

noncomputable def RING_SPACING : ℝ := 260

noncomputable def NODE_W : ℝ := 160

noncomputable def NODE_H : ℝ := 200

/-- A layout entry `{x, y, cx, cy}`: top-left anchor and true center. -/
structure Pos where
  x : ℝ
  y : ℝ
  cx : ℝ
  cy : ℝ

/-- `positions[source.id] = { x: CENTER_X - NODE_W/2, ... }`. -/
noncomputable def sourcePos : Pos :=
  ⟨CENTER_X - NODE_W / 2, CENTER_Y - NODE_H / 2, CENTER_X, CENTER_Y⟩

/-- `positions["__uploaded__"]`, above-left of the source. -/
noncomputable def uploadedPos : Pos :=
  ⟨CENTER_X - NODE_W / 2 - 300, CENTER_Y - NODE_H / 2 - 280, CENTER_X - 300, CENTER_Y - 280⟩

/-- Single JS-object assignment `positions[k] = v` on a string-keyed map. -/
def setPos (m : String → Option Pos) (k : String) (v : Pos) : String → Option Pos :=
  fun s => if s = k then some v else m s

/-- `rings[d]`: ids of the visible nodes at depth `d`, in `visibleNodes`
(i.e. input `nodes`) order — the rings object is filled by one pass over
`visibleNodes`. -/
def ringIds (g : Graph) (srcId : String) (d : Nat) : List String :=
  (visibleNodesOf g srcId).filterMap fun n =>
    if depthFrom g srcId n.id = some d then some n.id else none

/-- The multiset of depths occurring among the visible nodes. -/
def ringDepths (g : Graph) (srcId : String) : List Nat :=
  (visibleNodesOf g srcId).filterMap fun n => depthFrom g srcId n.id

/-- `Object.keys(rings).map(Number).sort((a, b) => a - b)`: the depths
present among the visible nodes, ascending and without duplicates.  It
is computed here as the ascending enumeration of the occurring depth
values, which is extensionally the JS sorted key list. -/
def ringKeys (g : Graph) (srcId : String) : List Nat :=
  (List.range ((ringDepths g srcId).foldr max 0 + 1)).filter
    fun d => d ∈ ringDepths g srcId

/-- Position of the `i`-th node (0-based) of the ring at depth `d`
holding `count` nodes: radius `(d + 1) * RING_SPACING`, angle
`d * 0.4 + i * (2π / count) - π/2`. -/
noncomputable def ringPos (d count i : Nat) : Pos :=
  let radius : ℝ := ((d : ℝ) + 1) * RING_SPACING
  let angle : ℝ := (d : ℝ) * 0.4 + (i : ℝ) * (2 * Real.pi / (count : ℝ)) - Real.pi / 2
  let cx : ℝ := CENTER_X + radius * Real.cos angle
  let cy : ℝ := CENTER_Y + radius * Real.sin angle
  ⟨cx - NODE_W / 2, cy - NODE_H / 2, cx, cy⟩

/-- The inner `for (let i = 0; ...)` loop over one ring: assigns
`positions[ids[i]] = ringPos d count i`. -/
noncomputable def placeRing (d count : Nat) :
    Nat → List String → (String → Option Pos) → (String → Option Pos)
  | _, [], acc => acc
  | i, idStr :: rest, acc => placeRing d count (i + 1) rest (setPos acc idStr (ringPos d count i))

/-- The full position map of `buildLayout`: source at center, the
uploaded marker above-left, then each ring placed in ascending depth
order. -/
noncomputable def positionsMap (g : Graph) (srcId : String) : String → Option Pos :=
  (ringKeys g srcId).foldl
    (fun acc d => placeRing d (ringIds g srcId d).length 0 (ringIds g srcId d) acc)
    (setPos (setPos (fun _ => none) srcId sourcePos) "__uploaded__" uploadedPos)

/-- `allNodeMap`: `{ [source.id]: source }` then one entry per visible
node (a later node with the same id overwrites an earlier one). -/
def allNodeMapOf (g : Graph) (srcId : String) (src : Node) : String → Option Node :=
  (visibleNodesOf g srcId).foldl
    (fun m n => fun s => if s = n.id then some n else m s)
    (fun s => if s = srcId then some src else none)

/-- The record returned by `buildLayout`. -/
structure LayoutResult where
  positions : String → Option Pos
  allNodes : List Node
  allNodeMap : String → Option Node
  visibleEdges : List Edge

/-- The `!spreadData` early-out value. -/
def emptyLayout : LayoutResult :=
  ⟨fun _ => none, [], fun _ => none, []⟩

/-- `buildLayout(spreadData)`.  A `null`/`undefined` argument returns the
empty result; a graph whose `source` is missing reads `source.id` off
`undefined` and throws a `TypeError`, modelled as `Except.error ()`. -/
noncomputable def buildLayout : Option Graph → Except Unit LayoutResult
  | none => .ok emptyLayout
  | some g =>
    match g.source with
    | none => .error ()
    | some src =>
      .ok
        { positions := positionsMap g src.id
          allNodes := src :: visibleNodesOf g src.id
          allNodeMap := allNodeMapOf g src.id src
          visibleEdges := visibleEdgesOf g src.id }

/-! ### Yarn connector geometry -/

/-- The data of the path string
`M x1 y1 Q cpx cpy x2 y2` produced by `yarnPath`. -/
structure YarnGeom where
  x1 : ℝ
  y1 : ℝ
  cpx : ℝ
  cpy : ℝ
  x2 : ℝ
  y2 : ℝ

/-- `yarnPath(x1, y1, x2, y2, idx)`: quadratic curve from `(x1,y1)` to
`(x2,y2)` whose control point is the midpoint displaced along the
normal `(-dy, dx) / (len || 1)` by `min(len * 0.1, 40)`, the sign
alternating with the parity of `idx`. -/
noncomputable def yarnPath (x1 y1 x2 y2 : ℝ) (idx : Nat) : YarnGeom :=
  let mx := (x1 + x2) / 2
  let my := (y1 + y2) / 2
  let dx := x2 - x1
  let dy := y2 - y1
  let len := Real.sqrt (dx * dx + dy * dy)
  let offsetMag := min (len * 0.1) 40 * (if idx % 2 = 0 then 1 else -1)
  let nx := -dy / (if len = 0 then 1 else len)
  let ny := dx / (if len = 0 then 1 else len)
  ⟨x1, y1, mx + nx * offsetMag, my + ny * offsetMag, x2, y2⟩

/-! ### Pan / zoom viewport (`usePanZoom` in `PinnedPhoto.jsx`) -/

/-- The `transform` state `{ x, y, scale }`. -/
structure Transform where
  x : ℝ
  y : ℝ
  scale : ℝ

/-- The full hook state: `transform`, the `isPanning` ref and the
`lastPos` ref. -/
structure PanZoomState where
  transform : Transform
  isPanning : Bool
  lastX : ℝ
  lastY : ℝ

/-- `useState({ x: 0, y: 0, scale: 0.55 })` plus the initial refs. -/
noncomputable def initPanZoom : PanZoomState :=
  ⟨⟨0, 0, 0.55⟩, false, 0, 0⟩

/-- `onMouseDown`: start panning unless the event target is an
interactive child (`.pinned-photo`, `.back-button`, `.node-popup`). -/
def onMouseDown (hitInteractive : Bool) (clientX clientY : ℝ) (st : PanZoomState) :
    PanZoomState :=
  if hitInteractive then st
  else { st with isPanning := true, lastX := clientX, lastY := clientY }

/-- `onMouseMove`: while panning, translate the offset by the pointer
delta and update the last position. -/
def onMouseMove (clientX clientY : ℝ) (st : PanZoomState) : PanZoomState :=
  if st.isPanning then
    { st with
      transform :=
        { st.transform with
          x := st.transform.x + (clientX - st.lastX)
          y := st.transform.y + (clientY - st.lastY) }
      lastX := clientX
      lastY := clientY }
  else st

/-- `onMouseUp` / `onMouseLeave`. -/
def onMouseUp (st : PanZoomState) : PanZoomState :=
  { st with isPanning := false }

/-- The per-event zoom factor: `exp(-deltaY * 0.0014)`, clamped to at
least `0.955` when zooming out and to `[1.0, 1.03]` when zooming in. -/
noncomputable def zoomFactor (deltaY : ℝ) : ℝ :=
  let rawFactor := Real.exp (-deltaY * 0.0014)
  if deltaY > 0 then max 0.955 rawFactor else min 1.03 (max 1.0 rawFactor)

/-- `onWheel` of `PinnedPhoto.jsx`: clamp the new scale to `[0.2, 2]`
and anchor the world point under the pointer. -/
noncomputable def onWheel (pointerX pointerY deltaY : ℝ) (st : PanZoomState) : PanZoomState :=
  let t := st.transform
  let nextScale := min 2 (max 0.2 (t.scale * zoomFactor deltaY))
  let worldX := (pointerX - t.x) / t.scale
  let worldY := (pointerY - t.y) / t.scale
  { st with
    transform :=
      { x := pointerX - worldX * nextScale
        y := pointerY - worldY * nextScale
        scale := nextScale } }

/-- `onWheel` of the older `CorkBoard.jsx` variant: fixed factor
`0.92`/`1.08`, same clamp, offset untouched. -/
noncomputable def corkOnWheel (deltaY : ℝ) (st : PanZoomState) : PanZoomState :=
  let delta : ℝ := if deltaY > 0 then 0.92 else 1.08
  { st with
    transform :=
      { st.transform with scale := min 2 (max 0.2 (st.transform.scale * delta)) } }

/-- One pointer/wheel event fed to the hook. -/
inductive PZEvent where
  | down (hitInteractive : Bool) (clientX clientY : ℝ)
  | move (clientX clientY : ℝ)
  | up
  | wheel (pointerX pointerY deltaY : ℝ)

/-- Dispatch of one event to the corresponding handler. -/
noncomputable def pzStep (st : PanZoomState) : PZEvent → PanZoomState
  | .down h cx cy => onMouseDown h cx cy st
  | .move cx cy => onMouseMove cx cy st
  | .up => onMouseUp st
  | .wheel px py dy => onWheel px py dy st

/-- The hook state after a finite sequence of events from the initial
state. -/
noncomputable def pzRun (events : List PZEvent) : PanZoomState :=
  events.foldl pzStep initPanZoom

/-! ### Selection lineage -/

/-- `edgeByTo`: `for (const edge of allEdges) if (edge?.to) byTo.set(edge.to, edge)` —
a `Map` from target id to its incoming edge, later edges overwriting
earlier ones. -/
def edgeByTo (edges : List Edge) : String → Option Edge :=
  edges.foldl
    (fun m e =>
      match e.toId with
      | some t => if t ≠ "" then (fun s => if s = t then some e else m s) else m
      | none => m)
    (fun _ => none)

/-- The `lineageNodeIds` walk: while the cursor is truthy and unseen,
record it, look up its incoming edge, and move to that edge's `from`
(breaking when there is none or it is falsy).  `fuel` bounds the number
of iterations; `lineageFuel` is always enough (see the fuel-independence
theorem for C9). -/
def lineageIdsAux (byTo : String → Option Edge) :
    Nat → String → List String → List String → List String
  | 0, _, _, ids => ids
  | fuel + 1, cursor, seen, ids =>
    if cursor ≠ "" ∧ cursor ∉ seen then
      let ids2 := ids ++ [cursor]
      match byTo cursor with
      | some e =>
        match e.fromId with
        | some f =>
          if f ≠ "" then lineageIdsAux byTo fuel f (cursor :: seen) ids2 else ids2
        | none => ids2
      | none => ids2
    else ids

/-- The `lineageEdgeKeys` walk: same cursor movement, recording the key
`` `${edge.from}-${edge.to}` `` of each traversed edge (breaking, before
recording, when the edge or either endpoint is falsy). -/
def lineageKeysAux (byTo : String → Option Edge) :
    Nat → String → List String → List String → List String
  | 0, _, _, keys => keys
  | fuel + 1, cursor, seen, keys =>
    if cursor ≠ "" ∧ cursor ∉ seen then
      match byTo cursor with
      | some e =>
        match e.fromId, e.toId with
        | some f, some t =>
          if f ≠ "" ∧ t ≠ "" then
            lineageKeysAux byTo fuel f (cursor :: seen) (keys ++ [f ++ "-" ++ t])
          else keys
        | some _, none => keys
        | none, _ => keys
      | none => keys
    else keys

/-- Iteration budget for the lineage walks: one step per distinct
possible cursor (the selected id plus each edge's `from`). -/
def lineageFuel (edges : List Edge) : Nat :=
  edges.length + 2

/-- The set (as a list) of highlighted node ids for a selection. -/
def lineageNodeIds (selectedId : String) (edges : List Edge) : List String :=
  lineageIdsAux (edgeByTo edges) (lineageFuel edges) selectedId [] []

/-- The set (as a list) of highlighted edge keys for a selection. -/
def lineageEdgeKeys (selectedId : String) (edges : List Edge) : List String :=
  lineageKeysAux (edgeByTo edges) (lineageFuel edges) selectedId [] []

/-- `allEdges`: the synthetic `{from: "__uploaded__", to: source.id}`
edge prepended to the reachable edges before rendering and lineage. -/
def allEdgesOf (g : Graph) (srcId : String) : List Edge :=
  ⟨some "__uploaded__", some srcId⟩ :: visibleEdgesOf g srcId

/-! ### Concrete instances used by the example-based claims -/

/-- The C4 example edge list `[src→A, A→B, B→C]`. -/
def lineageExampleEdges : List Edge :=
  [⟨some "src", some "A"⟩, ⟨some "A", some "B"⟩, ⟨some "B", some "C"⟩]

/-- A two-edge cycle in the incoming-edge index (`B→A`, `A→B`). -/
def cycleExampleEdges : List Edge :=
  [⟨some "B", some "A"⟩, ⟨some "A", some "B"⟩]

/-- A star graph: `src` with four children, all at depth 1. -/
def graphStar : Graph :=
  { source := some ⟨"src"⟩
    nodes := [⟨"n1"⟩, ⟨"n2"⟩, ⟨"n3"⟩, ⟨"n4"⟩]
    edges := [⟨some "src", some "n1"⟩, ⟨some "src", some "n2"⟩,
              ⟨some "src", some "n3"⟩, ⟨some "src", some "n4"⟩] }

/-- A graph with an edge back into the source (`src→n1`, `n1→src`). -/
def graphCycleToSource : Graph :=
  { source := some ⟨"src"⟩
    nodes := [⟨"n1"⟩]
    edges := [⟨some "src", some "n1"⟩, ⟨some "n1", some "src"⟩] }

/-- The C7 example: nodes `src` (the source) and `n1`, edges `src→n1`
and a dangling `n1→ghost`. -/
def graphDangling : Graph :=
  { source := some ⟨"src"⟩
    nodes := [⟨"n1"⟩]
    edges := [⟨some "src", some "n1"⟩, ⟨some "n1", some "ghost"⟩] }

/-- A graph value whose `source` field is missing. -/
def graphNoSource : Graph :=
  { source := none, nodes := [⟨"n1"⟩], edges := [⟨some "src", some "n1"⟩] }

/-- A graph whose source id is falsy (the empty string). -/
def graphFalsySource : Graph :=
  { source := some ⟨""⟩, nodes := [⟨"n1"⟩], edges := [⟨some "src", some "n1"⟩] }

/-- One `byTo.set` step of the `edgeByTo` fold. -/
def edgeByToStep (m : String → Option Edge) (e : Edge) : String → Option Edge :=
  match e.toId with
  | some t => if t ≠ "" then (fun s => if s = t then some e else m s) else m
  | none => m

/-- The candidate cursors of a walk over `edges` starting at `sel`. -/
def walkCandidates (sel : String) (edges : List Edge) : List String :=
  sel :: edges.filterMap Edge.fromId

/-! ### Lineage lemmas -/

theorem edgeByTo_eq_foldl (edges : List Edge) :
    edgeByTo edges = edges.foldl edgeByToStep (fun _ => none) := by
  unfold edgeByTo edgeByToStep
  rfl

theorem edgeByToStep_lookup (m : String → Option Edge) (e : Edge) (t : String) :
    edgeByToStep m e t = if e.toId = some t ∧ t ≠ "" then some e else m t := by
  obtain ⟨ef, et⟩ := e
  cases et with
  | none => simp [edgeByToStep]
  | some u =>
    simp only [edgeByToStep]
    by_cases hu : u = ""
    · subst hu
      simp only [ne_eq, not_true_eq_false, if_false, Option.some.injEq]
      have : ¬(("" : String) = t ∧ ¬t = "") := by
        rintro ⟨h1, h2⟩
        exact h2 h1.symm
      rw [if_neg this]
    · by_cases hc : u = t
      · subst hc
        simp [hu]
      · simp only [ne_eq, hu, not_false_eq_true, if_true, Option.some.injEq]
        have h1 : ¬(t = u) := fun h => hc h.symm
        have h2 : ¬(u = t ∧ ¬t = "") := fun h => hc h.1
        rw [if_neg h1, if_neg h2]

theorem foldl_edgeByToStep_mem (edges : List Edge) :
    ∀ (m : String → Option Edge) (s : String) (e : Edge),
      (edges.foldl edgeByToStep m) s = some e → e ∈ edges ∨ m s = some e := by
  induction edges with
  | nil => intro m s e h; exact Or.inr h
  | cons x xs ih =>
    intro m s e h
    rcases ih (edgeByToStep m x) s e h with h1 | h1
    · exact Or.inl (List.mem_cons_of_mem _ h1)
    · rw [edgeByToStep_lookup] at h1
      by_cases hc : x.toId = some s ∧ s ≠ ""
      · simp [hc] at h1
        exact Or.inl (h1 ▸ List.mem_cons_self x xs)
      · simp [hc] at h1
        exact Or.inr h1

/-- Every edge stored in the `edgeByTo` index is one of the input edges. -/
theorem edgeByTo_mem {edges : List Edge} {s : String} {e : Edge}
    (h : edgeByTo edges s = some e) : e ∈ edges := by
  rw [edgeByTo_eq_foldl] at h
  rcases foldl_edgeByToStep_mem edges _ s e h with h1 | h1
  · exact h1
  · simp at h1

/-- Keys untouched by any edge of a fold keep their previous value. -/
theorem foldl_edgeByToStep_notin (edges : List Edge) :
    ∀ (m : String → Option Edge) (t : String),
      (∀ e ∈ edges, e.toId ≠ some t) → (edges.foldl edgeByToStep m) t = m t := by
  induction edges with
  | nil => intro m t _; rfl
  | cons x xs ih =>
    intro m t h
    have hx : x.toId ≠ some t := h x (List.mem_cons_self x xs)
    have := ih (edgeByToStep m x) t (fun e he => h e (List.mem_cons_of_mem _ he))
    rw [List.foldl_cons, this, edgeByToStep_lookup]
    simp [hx]

/-- Appending one edge to the input list updates the index at exactly
that edge's (truthy) target key — last write wins. -/
theorem edgeByTo_append (es : List Edge) (e : Edge) (t : String) :
    edgeByTo (es ++ [e]) t =
      if e.toId = some t ∧ t ≠ "" then some e else edgeByTo es t := by
  rw [edgeByTo_eq_foldl, edgeByTo_eq_foldl, List.foldl_append, List.foldl_cons,
    List.foldl_nil, edgeByToStep_lookup]

/-- One-step unfolding of the node-id walk. -/
theorem lineageIdsAux_succ (byTo : String → Option Edge) (fuel : Nat) (cursor : String)
    (seen ids : List String) :
    lineageIdsAux byTo (fuel + 1) cursor seen ids =
      if cursor ≠ "" ∧ cursor ∉ seen then
        match byTo cursor with
        | some e =>
          match e.fromId with
          | some f =>
            if f ≠ "" then lineageIdsAux byTo fuel f (cursor :: seen) (ids ++ [cursor])
            else ids ++ [cursor]
          | none => ids ++ [cursor]
        | none => ids ++ [cursor]
      else ids := rfl

/-- One-step unfolding of the edge-key walk. -/
theorem lineageKeysAux_succ (byTo : String → Option Edge) (fuel : Nat) (cursor : String)
    (seen keys : List String) :
    lineageKeysAux byTo (fuel + 1) cursor seen keys =
      if cursor ≠ "" ∧ cursor ∉ seen then
        match byTo cursor with
        | some e =>
          match e.fromId, e.toId with
          | some f, some t =>
            if f ≠ "" ∧ t ≠ "" then
              lineageKeysAux byTo fuel f (cursor :: seen) (keys ++ [f ++ "-" ++ t])
            else keys
          | some _, none => keys
          | none, _ => keys
        | none => keys
      else keys := rfl

/-- The node-id walk only appends to its accumulator. -/
theorem lineageIdsAux_extends (byTo : String → Option Edge) :
    ∀ (fuel : Nat) (cursor : String) (seen ids : List String),
      ∃ t, lineageIdsAux byTo fuel cursor seen ids = ids ++ t := by
  intro fuel
  induction fuel with
  | zero =>
    intro cursor seen ids
    exact ⟨[], by rw [List.append_nil]; rfl⟩
  | succ n ih =>
    intro cursor seen ids
    by_cases hg : cursor ≠ "" ∧ cursor ∉ seen
    · cases hb : byTo cursor with
      | none => exact ⟨[cursor], by simp only [lineageIdsAux_succ, if_pos hg, hb]⟩
      | some e =>
        obtain ⟨ef, et⟩ := e
        cases ef with
        | none => exact ⟨[cursor], by simp only [lineageIdsAux_succ, if_pos hg, hb]⟩
        | some f =>
          by_cases hf0 : f ≠ ""
          · rcases ih f (cursor :: seen) (ids ++ [cursor]) with ⟨t, ht⟩
            refine ⟨[cursor] ++ t, ?_⟩
            simp only [lineageIdsAux_succ, if_pos hg, hb, if_pos hf0]
            rw [ht, List.append_assoc]
          · refine ⟨[cursor], ?_⟩
            simp only [lineageIdsAux_succ, if_pos hg, hb, if_neg hf0]
    · exact ⟨[], by simp only [lineageIdsAux_succ, if_neg hg, List.append_nil]⟩

/-- The edge-key walk only appends to its accumulator. -/
theorem lineageKeysAux_extends (byTo : String → Option Edge) :
    ∀ (fuel : Nat) (cursor : String) (seen keys : List String),
      ∃ t, lineageKeysAux byTo fuel cursor seen keys = keys ++ t := by
  intro fuel
  induction fuel with
  | zero =>
    intro cursor seen keys
    exact ⟨[], by rw [List.append_nil]; rfl⟩
  | succ n ih =>
    intro cursor seen keys
    by_cases hg : cursor ≠ "" ∧ cursor ∉ seen
    · cases hb : byTo cursor with
      | none =>
        exact ⟨[], by simp only [lineageKeysAux_succ, if_pos hg, hb, List.append_nil]⟩
      | some e =>
        obtain ⟨ef, et⟩ := e
        cases ef with
        | none =>
          exact ⟨[], by simp only [lineageKeysAux_succ, if_pos hg, hb, List.append_nil]⟩
        | some f =>
          cases et with
          | none =>
            exact ⟨[], by simp only [lineageKeysAux_succ, if_pos hg, hb, List.append_nil]⟩
          | some t =>
            by_cases hft : f ≠ "" ∧ t ≠ ""
            · rcases ih f (cursor :: seen) (keys ++ [f ++ "-" ++ t]) with ⟨u, hu⟩
              refine ⟨[f ++ "-" ++ t] ++ u, ?_⟩
              simp only [lineageKeysAux_succ, if_pos hg, hb, if_pos hft]
              rw [hu, List.append_assoc]
            · refine ⟨[], ?_⟩
              simp only [lineageKeysAux_succ, if_pos hg, hb, if_neg hft, List.append_nil]
    · exact ⟨[], by simp only [lineageKeysAux_succ, if_neg hg, List.append_nil]⟩

/-- A guarded first iteration of the node-id walk records the cursor. -/
theorem lineageIdsAux_head (byTo : String → Option Edge) (fuel : Nat) (cursor : String)
    (seen ids : List String) (h1 : cursor ≠ "") (h2 : cursor ∉ seen) :
    ∃ t, lineageIdsAux byTo (fuel + 1) cursor seen ids = (ids ++ [cursor]) ++ t := by
  have hg : cursor ≠ "" ∧ cursor ∉ seen := ⟨h1, h2⟩
  cases hb : byTo cursor with
  | none => exact ⟨[], by simp only [lineageIdsAux_succ, if_pos hg, hb, List.append_nil]⟩
  | some e =>
    obtain ⟨ef, et⟩ := e
    cases ef with
    | none => exact ⟨[], by simp only [lineageIdsAux_succ, if_pos hg, hb, List.append_nil]⟩
    | some f =>
      by_cases hf0 : f ≠ ""
      · rcases lineageIdsAux_extends byTo fuel f (cursor :: seen) (ids ++ [cursor]) with ⟨t, ht⟩
        exact ⟨t, by simp only [lineageIdsAux_succ, if_pos hg, hb, if_pos hf0]; exact ht⟩
      · exact ⟨[],
          by simp only [lineageIdsAux_succ, if_pos hg, hb, if_neg hf0, List.append_nil]⟩

/-- A guarded iteration of the node-id walk whose incoming edge has a
truthy `from` moves the cursor there. -/
theorem lineageIdsAux_step (byTo : String → Option Edge) (fuel : Nat) (cursor f : String)
    (et : Option String) (seen ids : List String) (h1 : cursor ≠ "") (h2 : cursor ∉ seen)
    (hb : byTo cursor = some ⟨some f, et⟩) (hf : f ≠ "") :
    lineageIdsAux byTo (fuel + 1) cursor seen ids =
      lineageIdsAux byTo fuel f (cursor :: seen) (ids ++ [cursor]) := by
  simp only [lineageIdsAux_succ, if_pos (And.intro h1 h2), hb, if_pos hf]

/-- A guarded iteration of the edge-key walk whose incoming edge has
truthy endpoints records the edge key and moves the cursor. -/
theorem lineageKeysAux_step (byTo : String → Option Edge) (fuel : Nat) (cursor f t : String)
    (seen keys : List String) (h1 : cursor ≠ "") (h2 : cursor ∉ seen)
    (hb : byTo cursor = some ⟨some f, some t⟩) (hf : f ≠ "") (ht : t ≠ "") :
    lineageKeysAux byTo (fuel + 1) cursor seen keys =
      lineageKeysAux byTo fuel f (cursor :: seen) (keys ++ [f ++ "-" ++ t]) := by
  simp only [lineageKeysAux_succ, if_pos (And.intro h1 h2), hb, if_pos (And.intro hf ht)]

/-- A filter by a weaker predicate is strictly shorter as soon as one
list element separates the two predicates. -/
theorem length_filter_lt_of_witness {α : Type} (p q : α → Bool)
    (himp : ∀ x, p x = true → q x = true) :
    ∀ (l : List α) (c : α), c ∈ l → p c = false → q c = true →
      (l.filter p).length < (l.filter q).length := by
  intro l
  induction l with
  | nil => intro c h; cases h
  | cons a l ih =>
    intro c hc hpc hqc
    rcases List.mem_cons.1 hc with rfl | hcl
    · rw [List.filter_cons, List.filter_cons, hpc, hqc]
      simp only [Bool.false_eq_true, if_false, if_true, List.length_cons]
      have hsub : List.Sublist (l.filter p) (l.filter q) :=
        List.monotone_filter_right l himp
      have := hsub.length_le
      omega
    · cases hpa : p a with
      | true =>
        have hqa : q a = true := himp a hpa
        rw [List.filter_cons, List.filter_cons, hpa, hqa]
        simp only [if_true, List.length_cons]
        have := ih c hcl hpc hqc
        omega
      | false =>
        cases hqa : q a with
        | true =>
          rw [List.filter_cons, List.filter_cons, hpa, hqa]
          simp only [Bool.false_eq_true, if_false, if_true, List.length_cons]
          have := ih c hcl hpc hqc
          omega
        | false =>
          rw [List.filter_cons, List.filter_cons, hpa, hqa]
          simp only [Bool.false_eq_true, if_false]
          exact ih c hcl hpc hqc

/-- Marking one more unseen element of `C` strictly shrinks the unseen
part of `C`. -/
theorem filter_seen_lt (c : String) (C seen : List String) (hc : c ∈ C) (hcs : c ∉ seen) :
    (C.filter fun s => s ∉ c :: seen).length <
      (C.filter fun s => s ∉ seen).length := by
  apply length_filter_lt_of_witness _ _ ?_ C c hc ?_ ?_
  · intro x hx
    simp only [decide_eq_true_eq] at hx ⊢
    exact fun hmem => hx (List.mem_cons_of_mem _ hmem)
  · simp
  · simpa using hcs

/-- Any two sufficient fuels give the node-id walk the same result:
every guarded iteration permanently consumes a cursor drawn from the
finite candidate list `C`. -/
theorem lineageIdsAux_fuelInd (byTo : String → Option Edge) (C : List String)
    (hC : ∀ s e f, byTo s = some e → e.fromId = some f → f ∈ C) :
    ∀ (fuel1 fuel2 : Nat) (cursor : String) (seen ids : List String),
      (C.filter fun s => s ∉ seen).length < fuel1 →
      (C.filter fun s => s ∉ seen).length < fuel2 →
      cursor ∈ C →
      lineageIdsAux byTo fuel1 cursor seen ids = lineageIdsAux byTo fuel2 cursor seen ids := by
  intro fuel1
  induction fuel1 with
  | zero =>
    intro fuel2 cursor seen ids h1
    exact absurd h1 (Nat.not_lt_zero _)
  | succ n ih =>
    intro fuel2 cursor seen ids h1 h2 hcur
    cases fuel2 with
    | zero => exact absurd h2 (Nat.not_lt_zero _)
    | succ m =>
      by_cases hg : cursor ≠ "" ∧ cursor ∉ seen
      · cases hb : byTo cursor with
        | none => simp only [lineageIdsAux_succ, if_pos hg, hb]
        | some e =>
          obtain ⟨ef, et⟩ := e
          cases ef with
          | none => simp only [lineageIdsAux_succ, if_pos hg, hb]
          | some f =>
            by_cases hf0 : f ≠ ""
            · simp only [lineageIdsAux_succ, if_pos hg, hb, if_pos hf0]
              have hdec := filter_seen_lt cursor C seen hcur hg.2
              have hfC : f ∈ C := hC cursor ⟨some f, et⟩ f hb rfl
              exact ih m f (cursor :: seen) (ids ++ [cursor]) (by omega) (by omega) hfC
            · simp only [lineageIdsAux_succ, if_pos hg, hb, if_neg hf0]
      · simp only [lineageIdsAux_succ, if_neg hg]

/-- Any two sufficient fuels give the edge-key walk the same result. -/
theorem lineageKeysAux_fuelInd (byTo : String → Option Edge) (C : List String)
    (hC : ∀ s e f, byTo s = some e → e.fromId = some f → f ∈ C) :
    ∀ (fuel1 fuel2 : Nat) (cursor : String) (seen keys : List String),
      (C.filter fun s => s ∉ seen).length < fuel1 →
      (C.filter fun s => s ∉ seen).length < fuel2 →
      cursor ∈ C →
      lineageKeysAux byTo fuel1 cursor seen keys =
        lineageKeysAux byTo fuel2 cursor seen keys := by
  intro fuel1
  induction fuel1 with
  | zero =>
    intro fuel2 cursor seen keys h1
    exact absurd h1 (Nat.not_lt_zero _)
  | succ n ih =>
    intro fuel2 cursor seen keys h1 h2 hcur
    cases fuel2 with
    | zero => exact absurd h2 (Nat.not_lt_zero _)
    | succ m =>
      by_cases hg : cursor ≠ "" ∧ cursor ∉ seen
      · cases hb : byTo cursor with
        | none => simp only [lineageKeysAux_succ, if_pos hg, hb]
        | some e =>
          obtain ⟨ef, et⟩ := e
          cases ef with
          | none => simp only [lineageKeysAux_succ, if_pos hg, hb]
          | some f =>
            cases et with
            | none => simp only [lineageKeysAux_succ, if_pos hg, hb]
            | some t =>
              by_cases hft : f ≠ "" ∧ t ≠ ""
              · simp only [lineageKeysAux_succ, if_pos hg, hb, if_pos hft]
                have hdec := filter_seen_lt cursor C seen hcur hg.2
                have hfC : f ∈ C := hC cursor ⟨some f, some t⟩ f hb rfl
                exact ih m f (cursor :: seen) (keys ++ [f ++ "-" ++ t])
                  (by omega) (by omega) hfC
              · simp only [lineageKeysAux_succ, if_pos hg, hb, if_neg hft]
      · simp only [lineageKeysAux_succ, if_neg hg]

theorem walkCandidates_closed (sel : String) (edges : List Edge) :
    ∀ s e f, edgeByTo edges s = some e → e.fromId = some f →
      f ∈ walkCandidates sel edges := by
  intro s e f hb hf
  exact List.mem_cons_of_mem _ (List.mem_filterMap.2 ⟨e, edgeByTo_mem hb, hf⟩)

theorem walkCandidates_small (sel : String) (edges : List Edge) :
    ((walkCandidates sel edges).filter fun s => s ∉ ([] : List String)).length <
      lineageFuel edges := by
  have h1 : ((walkCandidates sel edges).filter fun s => s ∉ ([] : List String)) =
      walkCandidates sel edges := by
    apply List.filter_eq_self.2
    intro a _
    simp
  rw [h1]
  have h2 := List.length_filterMap_le Edge.fromId edges
  simp only [walkCandidates, lineageFuel, List.length_cons]
  omega

/-- C4: on the edge list `[src→A, A→B, B→C]`, `lineageOf("C")` yields
exactly the node set `{src, A, B, C}` and the edge-key set
`{src-A, A-B, B-C}`, and `lineageOf("src")` yields exactly `{src}` and
no edge keys; in general the index maps each target id to its incoming
edge with the later edge in input order overwriting the earlier one, and
a (truthy) selected id is always contained in its own lineage. -/
theorem claim_C4 :
    (lineageNodeIds "C" lineageExampleEdges).toFinset = {"src", "A", "B", "C"} ∧
    (lineageEdgeKeys "C" lineageExampleEdges).toFinset = {"src-A", "A-B", "B-C"} ∧
    (lineageNodeIds "src" lineageExampleEdges).toFinset = {"src"} ∧
    lineageEdgeKeys "src" lineageExampleEdges = [] ∧
    (∀ (es : List Edge) (e : Edge) (t : String),
      edgeByTo (es ++ [e]) t = if e.toId = some t ∧ t ≠ "" then some e else edgeByTo es t) ∧
    ∀ (sel : String) (edges : List Edge), sel ≠ "" → sel ∈ lineageNodeIds sel edges := by
  refine ⟨by decide, by decide, by decide, by decide, edgeByTo_append, ?_⟩
  intro sel edges hsel
  have h : lineageFuel edges = edges.length + 1 + 1 := rfl
  unfold lineageNodeIds
  rw [h]
  rcases lineageIdsAux_head (edgeByTo edges) (edges.length + 1) sel [] [] hsel
    (List.not_mem_nil sel) with ⟨t, ht⟩
  rw [ht]
  simp

/-- C4 witness: a concrete instance of the always-included clause. -/
theorem claim_C4_witness : ("x" : String) ∈ lineageNodeIds "x" [] :=
  claim_C4.2.2.2.2.2 "x" [] (by decide)

/-- C9: the lineage walks terminate on every edge list, cycles included:
any iteration budget at least `lineageFuel edges` produces the same
result as the budget actually used (the visited-set guard consumes one
of finitely many candidate cursors per iteration), and on a cyclic
incoming-edge index the walk stops after visiting each id once. -/
theorem claim_C9 : ∀ (edges : List Edge) (sel : String) (extra : Nat),
    lineageIdsAux (edgeByTo edges) (lineageFuel edges + extra) sel [] [] =
      lineageNodeIds sel edges ∧
    lineageKeysAux (edgeByTo edges) (lineageFuel edges + extra) sel [] [] =
      lineageEdgeKeys sel edges ∧
    lineageNodeIds "A" cycleExampleEdges = ["A", "B"] := by
  intro edges sel extra
  have hC := walkCandidates_closed sel edges
  have hlen := walkCandidates_small sel edges
  refine ⟨?_, ?_, by decide⟩
  · exact lineageIdsAux_fuelInd _ _ hC (lineageFuel edges + extra) (lineageFuel edges)
      sel [] [] (by omega) hlen (List.mem_cons_self _ _)
  · exact lineageKeysAux_fuelInd _ _ hC (lineageFuel edges + extra) (lineageFuel edges)
      sel [] [] (by omega) hlen (List.mem_cons_self _ _)

/-- C10 counterexample: the rendered edge list is indeed the synthetic
edge prepended to the reachable edges, but on a graph with an edge back
into the source (`src→n1`, `n1→src`) the later `n1→src` edge overwrites
the synthetic `__uploaded__→src` edge in the incoming-edge index, so the
lineage of the source id does not contain `__uploaded__` — the claim's
"consequently…" part fails. -/
theorem claim_C10_counterexample :
    allEdgesOf graphCycleToSource "src" =
      Edge.mk (some "__uploaded__") (some "src") :: visibleEdgesOf graphCycleToSource "src" ∧
    "__uploaded__" ∉ lineageNodeIds "src" (allEdgesOf graphCycleToSource "src") := by
  exact ⟨rfl, by decide⟩

/-- C10 (amended): the rendered edge list is always the synthetic
`__uploaded__ → source.id` edge prepended to the reachable edges; and
provided no reachable edge points back into the source (so the synthetic
edge is not overwritten in the last-write-wins index) and the source id
is truthy and distinct from `__uploaded__`, the lineage of the source id
contains both the source id and `__uploaded__`, and the lineage edge
keys contain the synthetic edge's key — not the source alone. -/
theorem claim_C10 (g : Graph) (s : Node) (hs : g.source = some s) (h1 : s.id ≠ "")
    (h2 : s.id ≠ "__uploaded__")
    (h3 : ∀ e ∈ visibleEdgesOf g s.id, e.toId ≠ some s.id) :
    allEdgesOf g s.id = Edge.mk (some "__uploaded__") (some s.id) :: visibleEdgesOf g s.id ∧
    s.id ∈ lineageNodeIds s.id (allEdgesOf g s.id) ∧
    "__uploaded__" ∈ lineageNodeIds s.id (allEdgesOf g s.id) ∧
    ("__uploaded__" ++ "-" ++ s.id) ∈ lineageEdgeKeys s.id (allEdgesOf g s.id) := by
  have hsyn : edgeByTo (allEdgesOf g s.id) s.id =
      some ⟨some "__uploaded__", some s.id⟩ := by
    rw [edgeByTo_eq_foldl]
    show (List.foldl edgeByToStep (fun _ => none)
      (Edge.mk (some "__uploaded__") (some s.id) :: visibleEdgesOf g s.id)) s.id = _
    rw [List.foldl_cons, foldl_edgeByToStep_notin _ _ _ h3, edgeByToStep_lookup]
    simp [h1]
  have hup_ne : ("__uploaded__" : String) ≠ "" := by decide
  have hup_notin : ("__uploaded__" : String) ∉ [s.id] := by
    intro hmem
    exact h2 (List.mem_singleton.1 hmem).symm
  have hfuel : lineageFuel (allEdgesOf g s.id) = (allEdgesOf g s.id).length + 1 + 1 := rfl
  have hstep := lineageIdsAux_step (edgeByTo (allEdgesOf g s.id))
    ((allEdgesOf g s.id).length + 1) s.id "__uploaded__" (some s.id) [] []
    h1 (List.not_mem_nil _) hsyn hup_ne
  rcases lineageIdsAux_head (edgeByTo (allEdgesOf g s.id)) (allEdgesOf g s.id).length
    "__uploaded__" [s.id] ([] ++ [s.id]) hup_ne hup_notin with ⟨t, ht⟩
  have hids : lineageNodeIds s.id (allEdgesOf g s.id) =
      (([] ++ [s.id]) ++ ["__uploaded__"]) ++ t := by
    unfold lineageNodeIds
    rw [hfuel, hstep, ht]
  have hkstep := lineageKeysAux_step (edgeByTo (allEdgesOf g s.id))
    ((allEdgesOf g s.id).length + 1) s.id "__uploaded__" s.id [] []
    h1 (List.not_mem_nil _) hsyn hup_ne h1
  rcases lineageKeysAux_extends (edgeByTo (allEdgesOf g s.id)) ((allEdgesOf g s.id).length + 1)
    "__uploaded__" [s.id] ([] ++ ["__uploaded__" ++ "-" ++ s.id]) with ⟨u, hu⟩
  have hkeys : lineageEdgeKeys s.id (allEdgesOf g s.id) =
      ([] ++ ["__uploaded__" ++ "-" ++ s.id]) ++ u := by
    unfold lineageEdgeKeys
    rw [hfuel, hkstep, hu]
  refine ⟨rfl, ?_, ?_, ?_⟩
  · rw [hids]; simp
  · rw [hids]; simp
  · rw [hkeys]; simp

/-- C10 witness: the amended statement applied to the star graph. -/
theorem claim_C10_witness :
    "__uploaded__" ∈ lineageNodeIds "src" (allEdgesOf graphStar "src") :=
  (claim_C10 graphStar ⟨"src"⟩ rfl (by decide) (by decide) (by decide)).2.2.1

/-! ### Viewport lemmas -/

/-- The clamped scale always lands in `[0.2, 2]`, whatever the factor. -/
theorem scale_clamp_mem (s f : ℝ) :
    0.2 ≤ min 2 (max 0.2 (s * f)) ∧ min 2 (max 0.2 (s * f)) ≤ 2 :=
  ⟨le_min (by norm_num) (le_max_left _ _), min_le_left _ _⟩

/-- Every event handler keeps the scale within `[0.2, 2]`. -/
theorem pzStep_scale_inv (st : PanZoomState) (e : PZEvent)
    (h1 : 0.2 ≤ st.transform.scale) (h2 : st.transform.scale ≤ 2) :
    0.2 ≤ (pzStep st e).transform.scale ∧ (pzStep st e).transform.scale ≤ 2 := by
  cases e with
  | down hit cx cy =>
    have : (pzStep st (.down hit cx cy)).transform.scale = st.transform.scale := by
      simp only [pzStep, onMouseDown]
      by_cases hh : hit = true
      · rw [if_pos hh]
      · rw [if_neg hh]
    rw [this]
    exact ⟨h1, h2⟩
  | move cx cy =>
    have : (pzStep st (.move cx cy)).transform.scale = st.transform.scale := by
      simp only [pzStep, onMouseMove]
      by_cases hp : st.isPanning = true
      · rw [if_pos hp]
      · rw [if_neg hp]
    rw [this]
    exact ⟨h1, h2⟩
  | up => exact ⟨h1, h2⟩
  | wheel px py dy => exact scale_clamp_mem st.transform.scale (zoomFactor dy)

/-- C5: pointer-anchored zoom — for every state with a nonzero scale and
every wheel event at screen point `(pointerX, pointerY)`, the world
coordinate under the pointer, computed as `(pointer − offset) / scale`,
is unchanged by the zoom step (exactly, in real arithmetic). -/
theorem claim_C5 (st : PanZoomState) (pointerX pointerY deltaY : ℝ)
    (hscale : st.transform.scale ≠ 0) :
    (pointerX - (onWheel pointerX pointerY deltaY st).transform.x) /
        (onWheel pointerX pointerY deltaY st).transform.scale =
      (pointerX - st.transform.x) / st.transform.scale ∧
    (pointerY - (onWheel pointerX pointerY deltaY st).transform.y) /
        (onWheel pointerX pointerY deltaY st).transform.scale =
      (pointerY - st.transform.y) / st.transform.scale := by
  have h02 : (0.2 : ℝ) ≤ min 2 (max 0.2 (st.transform.scale * zoomFactor deltaY)) :=
    le_min (by norm_num) (le_max_left _ _)
  have hns0 : min 2 (max 0.2 (st.transform.scale * zoomFactor deltaY)) ≠ 0 :=
    ne_of_gt (lt_of_lt_of_le (by norm_num) h02)
  have hx : (onWheel pointerX pointerY deltaY st).transform.x =
      pointerX - (pointerX - st.transform.x) / st.transform.scale *
        min 2 (max 0.2 (st.transform.scale * zoomFactor deltaY)) := rfl
  have hy : (onWheel pointerX pointerY deltaY st).transform.y =
      pointerY - (pointerY - st.transform.y) / st.transform.scale *
        min 2 (max 0.2 (st.transform.scale * zoomFactor deltaY)) := rfl
  have hsc : (onWheel pointerX pointerY deltaY st).transform.scale =
      min 2 (max 0.2 (st.transform.scale * zoomFactor deltaY)) := rfl
  constructor
  · rw [hx, hsc, sub_sub_cancel, mul_div_cancel_right₀ _ hns0]
  · rw [hy, hsc, sub_sub_cancel, mul_div_cancel_right₀ _ hns0]

/-- C5 witness: the anchoring identity at a concrete state and event. -/
theorem claim_C5_witness :
    (3 - (onWheel 3 4 1 ⟨⟨0, 0, 1⟩, false, 0, 0⟩).transform.x) /
        (onWheel 3 4 1 ⟨⟨0, 0, 1⟩, false, 0, 0⟩).transform.scale =
      (3 - (0 : ℝ)) / 1 :=
  (claim_C5 ⟨⟨0, 0, 1⟩, false, 0, 0⟩ 3 4 1 one_ne_zero).1

/-- C6: from the initial state, any finite event sequence keeps
`0.2 ≤ scale ≤ 2`; each wheel step sets the scale to
`clamp(scale × factor, 0.2, 2.0)`; pan events (mouse down/move/up) never
change the scale; and the older `CorkBoard.jsx` wheel handler obeys the
same clamp bounds. -/
theorem claim_C6 :
    (∀ (events : List PZEvent),
      0.2 ≤ (pzRun events).transform.scale ∧ (pzRun events).transform.scale ≤ 2) ∧
    (∀ (st : PanZoomState) (px py dy : ℝ),
      (onWheel px py dy st).transform.scale =
        min 2 (max 0.2 (st.transform.scale * zoomFactor dy))) ∧
    (∀ (st : PanZoomState) (h : Bool) (cx cy : ℝ),
      (onMouseDown h cx cy st).transform.scale = st.transform.scale ∧
      (onMouseMove cx cy st).transform.scale = st.transform.scale ∧
      (onMouseUp st).transform.scale = st.transform.scale) ∧
    ∀ (st : PanZoomState) (dy : ℝ),
      0.2 ≤ (corkOnWheel dy st).transform.scale ∧
        (corkOnWheel dy st).transform.scale ≤ 2 := by
  refine ⟨?_, fun _ _ _ _ => rfl, ?_, ?_⟩
  · intro events
    have hgen : ∀ (l : List PZEvent) (st : PanZoomState),
        0.2 ≤ st.transform.scale → st.transform.scale ≤ 2 →
        0.2 ≤ (l.foldl pzStep st).transform.scale ∧
          (l.foldl pzStep st).transform.scale ≤ 2 := by
      intro l
      induction l with
      | nil => intro st h1 h2; exact ⟨h1, h2⟩
      | cons e l ih =>
        intro st h1 h2
        rcases pzStep_scale_inv st e h1 h2 with ⟨h1a, h2a⟩
        exact ih _ h1a h2a
    exact hgen events initPanZoom (by norm_num [initPanZoom]) (by norm_num [initPanZoom])
  · intro st h cx cy
    refine ⟨?_, ?_, rfl⟩
    · simp only [onMouseDown]
      by_cases hh : h = true
      · rw [if_pos hh]
      · rw [if_neg hh]
    · simp only [onMouseMove]
      by_cases hp : st.isPanning = true
      · rw [if_pos hp]
      · rw [if_neg hp]
  · intro st dy
    exact scale_clamp_mem st.transform.scale (if dy > 0 then (0.92 : ℝ) else 1.08)

/-! ### Yarn geometry lemmas -/

/-- A displacement along a unit normal scaled by `m` and a unit sign has
squared length `m²`. -/
theorem normal_disp_sq (dx dy L m σ : ℝ) (hL : L ≠ 0) (hL2 : L^2 = dx*dx + dy*dy)
    (hσ : σ^2 = 1) :
    (-dy/L*(m*σ))^2 + (dx/L*(m*σ))^2 = m^2 := by
  have h1 : (-dy/L*(m*σ))^2 + (dx/L*(m*σ))^2 = ((dx*dx + dy*dy)/L^2) * (m^2 * σ^2) := by
    ring
  rw [h1, ← hL2, div_self (pow_ne_zero 2 hL), one_mul, hσ, mul_one]

/-- C8: the connector keeps its endpoints; with coincident endpoints
(`length = 0`) the guarded division yields a zero displacement, so the
control point is the midpoint; otherwise the control point is the
midpoint displaced along the unit normal of `p2 − p1` by magnitude
`min(0.1 × length, 40)`, signed `+1` for even `index` and `−1` for odd,
and in particular its squared distance from the midpoint is that
magnitude squared. -/
theorem claim_C8 (x1 y1 x2 y2 : ℝ) (idx : Nat) :
    (yarnPath x1 y1 x2 y2 idx).x1 = x1 ∧ (yarnPath x1 y1 x2 y2 idx).y1 = y1 ∧
    (yarnPath x1 y1 x2 y2 idx).x2 = x2 ∧ (yarnPath x1 y1 x2 y2 idx).y2 = y2 ∧
    (Real.sqrt ((x2 - x1) * (x2 - x1) + (y2 - y1) * (y2 - y1)) = 0 →
      (yarnPath x1 y1 x2 y2 idx).cpx = (x1 + x2) / 2 ∧
      (yarnPath x1 y1 x2 y2 idx).cpy = (y1 + y2) / 2) ∧
    (Real.sqrt ((x2 - x1) * (x2 - x1) + (y2 - y1) * (y2 - y1)) ≠ 0 →
      ((yarnPath x1 y1 x2 y2 idx).cpx = (x1 + x2) / 2 +
          (if idx % 2 = 0 then (1 : ℝ) else -1) *
            min (Real.sqrt ((x2 - x1) * (x2 - x1) + (y2 - y1) * (y2 - y1)) * 0.1) 40 *
            (-(y2 - y1) / Real.sqrt ((x2 - x1) * (x2 - x1) + (y2 - y1) * (y2 - y1)))) ∧
      ((yarnPath x1 y1 x2 y2 idx).cpy = (y1 + y2) / 2 +
          (if idx % 2 = 0 then (1 : ℝ) else -1) *
            min (Real.sqrt ((x2 - x1) * (x2 - x1) + (y2 - y1) * (y2 - y1)) * 0.1) 40 *
            ((x2 - x1) / Real.sqrt ((x2 - x1) * (x2 - x1) + (y2 - y1) * (y2 - y1)))) ∧
      (-(y2 - y1) / Real.sqrt ((x2 - x1) * (x2 - x1) + (y2 - y1) * (y2 - y1)))^2 +
        ((x2 - x1) / Real.sqrt ((x2 - x1) * (x2 - x1) + (y2 - y1) * (y2 - y1)))^2 = 1 ∧
      ((yarnPath x1 y1 x2 y2 idx).cpx - (x1 + x2) / 2)^2 +
          ((yarnPath x1 y1 x2 y2 idx).cpy - (y1 + y2) / 2)^2 =
        (min (Real.sqrt ((x2 - x1) * (x2 - x1) + (y2 - y1) * (y2 - y1)) * 0.1) 40)^2) := by
  set L := Real.sqrt ((x2 - x1) * (x2 - x1) + (y2 - y1) * (y2 - y1)) with hLdef
  have hcpx : (yarnPath x1 y1 x2 y2 idx).cpx =
      (x1 + x2) / 2 + (-(y2 - y1) / (if L = 0 then 1 else L)) *
        (min (L * 0.1) 40 * (if idx % 2 = 0 then (1 : ℝ) else -1)) := rfl
  have hcpy : (yarnPath x1 y1 x2 y2 idx).cpy =
      (y1 + y2) / 2 + ((x2 - x1) / (if L = 0 then 1 else L)) *
        (min (L * 0.1) 40 * (if idx % 2 = 0 then (1 : ℝ) else -1)) := rfl
  have hσ : (if idx % 2 = 0 then (1 : ℝ) else -1)^2 = 1 := by
    by_cases h : idx % 2 = 0 <;> simp [h]
  refine ⟨rfl, rfl, rfl, rfl, ?_, ?_⟩
  · intro hL
    rw [hL] at hcpx hcpy
    norm_num at hcpx hcpy
    exact ⟨hcpx, hcpy⟩
  · intro hL
    have hL2 : L^2 = (x2 - x1) * (x2 - x1) + (y2 - y1) * (y2 - y1) :=
      Real.sq_sqrt (add_nonneg (mul_self_nonneg _) (mul_self_nonneg _))
    rw [if_neg hL] at hcpx hcpy
    refine ⟨by rw [hcpx]; ring, by rw [hcpy]; ring, ?_, ?_⟩
    · have h1 : (-(y2 - y1) / L)^2 + ((x2 - x1) / L)^2 =
          ((x2 - x1) * (x2 - x1) + (y2 - y1) * (y2 - y1)) / L^2 := by ring
      rw [h1, ← hL2, div_self (pow_ne_zero 2 hL)]
    · rw [hcpx, hcpy]
      have h2 : ((x1 + x2) / 2 + -(y2 - y1) / L *
            (min (L * 0.1) 40 * (if idx % 2 = 0 then (1 : ℝ) else -1)) - (x1 + x2) / 2)^2 +
          ((y1 + y2) / 2 + (x2 - x1) / L *
            (min (L * 0.1) 40 * (if idx % 2 = 0 then (1 : ℝ) else -1)) - (y1 + y2) / 2)^2 =
          (-(y2 - y1)/L*(min (L * 0.1) 40 * (if idx % 2 = 0 then (1 : ℝ) else -1)))^2 +
          ((x2 - x1)/L*(min (L * 0.1) 40 * (if idx % 2 = 0 then (1 : ℝ) else -1)))^2 := by
        ring
      rw [h2, normal_disp_sq _ _ _ _ _ hL hL2 hσ]

/-- C8 witness: the degenerate coincident-endpoints case at the origin. -/
theorem claim_C8_witness :
    (yarnPath 0 0 0 0 0).cpx = ((0 : ℝ) + 0) / 2 ∧
    (yarnPath 0 0 0 0 0).cpy = ((0 : ℝ) + 0) / 2 :=
  (claim_C8 0 0 0 0 0).2.2.2.2.1 (by norm_num [Real.sqrt_zero])

/-! ### BFS correctness -/

theorem enqueueChildren_nil (ids : List String) (d1 : Nat) (queue : List String)
    (depth : String → Option Nat) :
    enqueueChildren ids d1 [] queue depth = (queue, depth) := rfl

theorem enqueueChildren_cons (ids : List String) (d1 : Nat) (c : String) (cs queue : List String)
    (depth : String → Option Nat) :
    enqueueChildren ids d1 (c :: cs) queue depth =
      if c ∈ ids ∧ depth c = none then
        enqueueChildren ids d1 cs (queue ++ [c]) fun s => if s = c then some d1 else depth s
      else enqueueChildren ids d1 cs queue depth := rfl

theorem bfsLoop_zero (children : String → List String) (ids : List String)
    (queue : List String) (depth : String → Option Nat) :
    bfsLoop children ids 0 queue depth = depth := rfl

theorem bfsLoop_nil (children : String → List String) (ids : List String) (fuel : Nat)
    (depth : String → Option Nat) :
    bfsLoop children ids (fuel + 1) [] depth = depth := rfl

theorem bfsLoop_cons (children : String → List String) (ids : List String) (fuel : Nat)
    (cur : String) (rest : List String) (depth : String → Option Nat) :
    bfsLoop children ids (fuel + 1) (cur :: rest) depth =
      bfsLoop children ids fuel
        (enqueueChildren ids ((depth cur).getD 0 + 1) (children cur) rest depth).1
        (enqueueChildren ids ((depth cur).getD 0 + 1) (children cur) rest depth).2 := rfl

/-- Freshly labelling one element of a duplicate-free list removes
exactly one element from its unlabelled part. -/
theorem filter_isNone_update (depth : String → Option Nat) (c : String) (d1 : Nat)
    (hnone : depth c = none) :
    ∀ (l : List String), l.Nodup → c ∈ l →
      (l.filter fun s => ((if s = c then some d1 else depth s : Option Nat)).isNone).length + 1 =
        (l.filter fun s => (depth s).isNone).length := by
  intro l
  induction l with
  | nil => intro _ h; cases h
  | cons a l ih =>
    intro hnd hc
    have hndl : l.Nodup := hnd.of_cons
    rcases List.mem_cons.1 hc with rfl | hcl
    · have hcnotin : c ∉ l := (List.nodup_cons.1 hnd).1
      have hagree : (l.filter fun s =>
            ((if s = c then some d1 else depth s : Option Nat)).isNone) =
          l.filter fun s => (depth s).isNone := by
        apply List.filter_congr
        intro x hx
        have hxc : x ≠ c := fun h => hcnotin (h ▸ hx)
        simp [hxc]
      rw [List.filter_cons, List.filter_cons]
      have hnew : ((if c = c then some d1 else depth c : Option Nat)).isNone = false := by
        simp
      have hold : (depth c).isNone = true := by
        simp [hnone]
      rw [hnew, hold]
      simp only [Bool.false_eq_true, if_false, if_true, List.length_cons, hagree]
    · by_cases hac : a = c
      · subst hac
        have hanotin : a ∉ l := (List.nodup_cons.1 hnd).1
        exact absurd hcl hanotin
      · have hagree : ((if a = c then some d1 else depth a : Option Nat)).isNone =
            (depth a).isNone := by
          simp [hac]
        rw [List.filter_cons, List.filter_cons, hagree]
        cases hv : (depth a).isNone with
        | false =>
          simp only [Bool.false_eq_true, if_false]
          exact ih hndl hcl
        | true =>
          simp only [if_true, List.length_cons]
          have := ih hndl hcl
          omega

/-- `unseenCount` decreases by one on a fresh label of a known node id. -/
theorem unseenCount_update (ids : List String) (depth : String → Option Nat) (c : String)
    (d1 : Nat) (hc : c ∈ ids) (hnone : depth c = none) :
    unseenCount ids (fun s => if s = c then some d1 else depth s) + 1 =
      unseenCount ids depth := by
  unfold unseenCount
  exact filter_isNone_update depth c d1 hnone ids.dedup ids.nodup_dedup
    (List.mem_dedup.2 hc)

/-- Full characterisation of one `enqueueChildren` pass: the queue grows
by some suffix `app` of freshly labelled children; old labels persist;
every label is an old label or a fresh `d1` label of an `app` member;
`app` members are labelled `d1` and are kept children; every kept child
ends up labelled; and the loop measure does not increase. -/
theorem enqueue_spec (ids : List String) (d1 : Nat) :
    ∀ (cs queue : List String) (depth : String → Option Nat),
      ∃ app,
        (enqueueChildren ids d1 cs queue depth).1 = queue ++ app ∧
        (∀ x dx, depth x = some dx → (enqueueChildren ids d1 cs queue depth).2 x = some dx) ∧
        (∀ x dx, (enqueueChildren ids d1 cs queue depth).2 x = some dx →
          depth x = some dx ∨ (dx = d1 ∧ x ∈ app)) ∧
        (∀ x ∈ app, (enqueueChildren ids d1 cs queue depth).2 x = some d1 ∧
          x ∈ cs ∧ x ∈ ids) ∧
        (∀ c ∈ cs, c ∈ ids → ((enqueueChildren ids d1 cs queue depth).2 c).isSome) ∧
        (enqueueChildren ids d1 cs queue depth).1.length +
            2 * unseenCount ids (enqueueChildren ids d1 cs queue depth).2 ≤
          queue.length + 2 * unseenCount ids depth := by
  intro cs
  induction cs with
  | nil =>
    intro queue depth
    refine ⟨[], by simp [enqueueChildren_nil], fun x dx h => h, fun x dx h => Or.inl h,
      ?_, ?_, by simp [enqueueChildren_nil]⟩
    · intro x hx; cases hx
    · intro c hc; cases hc
  | cons c cs ih =>
    intro queue depth
    by_cases hg : c ∈ ids ∧ depth c = none
    · rcases ih (queue ++ [c]) (fun s => if s = c then some d1 else depth s) with
        ⟨app, happ, hext, hnewlab, happmem, hcov, hmeas⟩
      have heq : enqueueChildren ids d1 (c :: cs) queue depth =
          enqueueChildren ids d1 cs (queue ++ [c])
            (fun s => if s = c then some d1 else depth s) := by
        rw [enqueueChildren_cons, if_pos hg]
      refine ⟨c :: app, ?_, ?_, ?_, ?_, ?_, ?_⟩
      · rw [heq, happ]
        simp
      · intro x dx hx
        rw [heq]
        apply hext
        have hxc : x ≠ c := fun h => by rw [h, hg.2] at hx; cases hx
        simp [hxc, hx]
      · intro x dx hx
        rw [heq] at hx
        rcases hnewlab x dx hx with hmid | ⟨rfl, hmem⟩
        · by_cases hxc : x = c
          · subst hxc
            simp only [if_pos rfl] at hmid
            exact Or.inr ⟨(Option.some.inj hmid).symm, List.mem_cons_self _ _⟩
          · simp only [if_neg hxc] at hmid
            exact Or.inl hmid
        · exact Or.inr ⟨rfl, List.mem_cons_of_mem _ hmem⟩
      · intro x hx
        rcases List.mem_cons.1 hx with rfl | hxa
        · refine ⟨?_, List.mem_cons_self _ _, hg.1⟩
          rw [heq]
          apply hext
          simp
        · rcases happmem x hxa with ⟨hlab, hcs, hids⟩
          exact ⟨by rw [heq]; exact hlab, List.mem_cons_of_mem _ hcs, hids⟩
      · intro a ha hids
        rcases List.mem_cons.1 ha with rfl | hacs
        · have hlab1 : (enqueueChildren ids d1 cs (queue ++ [a])
              (fun s => if s = a then some d1 else depth s)).2 a = some d1 := by
            apply hext
            simp
          rw [heq, hlab1]
          rfl
        · rw [heq]
          exact hcov a hacs hids
      · rw [heq]
        have hcnt := unseenCount_update ids depth c d1 hg.1 hg.2
        have hql : (queue ++ [c]).length = queue.length + 1 := by simp
        omega
    · rcases ih queue depth with ⟨app, happ, hext, hnewlab, happmem, hcov, hmeas⟩
      have heq : enqueueChildren ids d1 (c :: cs) queue depth =
          enqueueChildren ids d1 cs queue depth := by
        rw [enqueueChildren_cons, if_neg hg]
      refine ⟨app, by rw [heq]; exact happ, by rw [heq]; exact hext, by rw [heq]; exact hnewlab,
        ?_, ?_, by rw [heq]; exact hmeas⟩
      · intro x hx
        rcases happmem x hx with ⟨hlab, hcs, hids⟩
        exact ⟨by rw [heq]; exact hlab, List.mem_cons_of_mem _ hcs, hids⟩
      · intro a ha hids
        rcases List.mem_cons.1 ha with rfl | hacs
        · have hsome : (depth a).isSome := by
            cases hda : depth a with
            | none => exact absurd ⟨hids, hda⟩ hg
            | some v => rfl
          rcases Option.isSome_iff_exists.1 hsome with ⟨v, hv⟩
          rw [heq, hext a v hv]
          rfl
        · rw [heq]
          exact hcov a hacs hids

/-- Popping the front of the queue and enqueueing its unvisited children
preserves the BFS invariant and strictly decreases the loop measure. -/
theorem bfs_inv_step (children : String → List String) (ids : List String) (src : String)
    (cur : String) (rest : List String) (depth : String → Option Nat) (d : Nat)
    (hd : depth cur = some d)
    (hinv : BfsInv children ids src (cur :: rest) depth) :
    BfsInv children ids src
      (enqueueChildren ids (d + 1) (children cur) rest depth).1
      (enqueueChildren ids (d + 1) (children cur) rest depth).2 ∧
    (enqueueChildren ids (d + 1) (children cur) rest depth).1.length +
        2 * unseenCount ids (enqueueChildren ids (d + 1) (children cur) rest depth).2 ≤
      rest.length + 2 * unseenCount ids depth := by
  rcases enqueue_spec ids (d + 1) (children cur) rest depth with
    ⟨app, happ, hext, hnewlab, happmem, hcov, hmeas⟩
  set q2 := (enqueueChildren ids (d + 1) (children cur) rest depth).1 with hq2def
  set dep2 := (enqueueChildren ids (d + 1) (children cur) rest depth).2 with hdep2def
  have hrest_lab : ∀ x ∈ rest, ∃ dx, depth x = some dx := by
    intro x hx
    exact Option.isSome_iff_exists.1 (hinv.qlab x (List.mem_cons_of_mem _ hx))
  have hpres : ∀ x ∈ rest, dep2 x = depth x := by
    intro x hx
    rcases hrest_lab x hx with ⟨dx, hdx⟩
    rw [hdx, hext x dx hdx]
  have hlab2eq : ∀ x ∈ rest, (dep2 x).getD 0 = (depth x).getD 0 := by
    intro x hx
    rw [hpres x hx]
  have hheadle : ∀ b ∈ rest, d ≤ (depth b).getD 0 := by
    intro b hb
    have := (List.pairwise_cons.1 hinv.sortedQ).1 b hb
    rwa [hd] at this
  have hpwrest : rest.Pairwise fun a b => (depth a).getD 0 ≤ (depth b).getD 0 :=
    (List.pairwise_cons.1 hinv.sortedQ).2
  have hboundold : ∀ x dx, depth x = some dx → dx ≤ d + 1 := by
    intro x dx hdx
    have := hinv.bound x dx cur hdx rfl
    rwa [hd] at this
  constructor
  · constructor
    · -- qlab
      intro x hx
      rw [happ] at hx
      rcases List.mem_append.1 hx with hx | hx
      · rcases hrest_lab x hx with ⟨dx, hdx⟩
        rw [hext x dx hdx]
        rfl
      · rw [(happmem x hx).1]
        rfl
    · -- srcZero
      exact hext src 0 hinv.srcZero
    · -- dom
      intro x hx
      rcases Option.isSome_iff_exists.1 hx with ⟨dx, hdx⟩
      rcases hnewlab x dx hdx with hmid | ⟨_, hmem⟩
      · exact hinv.dom x (by rw [hmid]; rfl)
      · exact Or.inr (happmem x hmem).2.2
    · -- sound
      intro x dx hdx
      rcases hnewlab x dx hdx with hmid | ⟨rfl, hmem⟩
      · exact hinv.sound x dx hmid
      · rcases happmem x hmem with ⟨_, hxcs, hxids⟩
        exact ReachN.tail (hinv.sound cur d hd) hxcs hxids
    · -- sortedQ
      rw [happ]
      refine List.pairwise_append.2 ⟨?_, ?_, ?_⟩
      · exact hpwrest.imp_of_mem fun ha hb hr => by
          rw [hlab2eq _ ha, hlab2eq _ hb]; exact hr
      · apply List.pairwise_of_forall_mem_list
        intro a ha b hb
        rw [(happmem a ha).1, (happmem b hb).1]
      · intro a ha b hb
        rw [hlab2eq _ ha, (happmem b hb).1]
        rcases hrest_lab a ha with ⟨da, hda⟩
        rw [hda]
        have h1 : da ≤ d + 1 := hboundold a da hda
        exact h1
    · -- bound
      intro x dx y hdx hhead
      cases rest with
      | cons r rest2 =>
        have hy : y = r := by
          rw [happ] at hhead
          rw [List.cons_append] at hhead
          exact (Option.some.inj hhead).symm
        subst hy
        have hrrest : y ∈ y :: rest2 := List.mem_cons_self _ _
        rcases hrest_lab y hrrest with ⟨dy, hdy⟩
        have hyd : d ≤ dy := by
          have := hheadle y hrrest
          rwa [hdy] at this
        have hlab2 : (dep2 y).getD 0 = dy := by
          rw [hpres y hrrest, hdy]
          rfl
        rw [hlab2]
        rcases hnewlab x dx hdx with hmid | ⟨rfl, _⟩
        · have := hboundold x dx hmid
          omega
        · omega
      | nil =>
        rw [happ, List.nil_append] at hhead
        cases happd : app with
        | nil =>
          rw [happd] at hhead
          cases hhead
        | cons a app2 =>
          rw [happd] at hhead
          have hy : y = a := (Option.some.inj hhead).symm
          subst hy
          have hya : y ∈ app := by rw [happd]; exact List.mem_cons_self _ _
          have hlab2 : (dep2 y).getD 0 = d + 1 := by
            rw [(happmem y hya).1]
            rfl
          rw [hlab2]
          rcases hnewlab x dx hdx with hmid | ⟨rfl, _⟩
          · have := hboundold x dx hmid
            omega
          · omega
    · -- closed
      intro m dm hdm
      rcases hnewlab m dm hdm with hmid | ⟨rfl, hmem⟩
      · rcases hinv.closed m dm hmid with hmq | hcl
        · rcases List.mem_cons.1 hmq with hmc | hmrest
          · -- m = cur : its children are now all labelled, with bound d + 1
            right
            have hdmd : dm = d := by
              rw [hmc] at hmid
              exact Option.some.inj (hmid.symm.trans hd)
            intro c hc hcids
            rw [hmc] at hc
            rcases Option.isSome_iff_exists.1 (hcov c hc hcids) with ⟨dc, hdc⟩
            refine ⟨dc, hdc, ?_⟩
            rcases hnewlab c dc hdc with hcold | ⟨rfl, _⟩
            · have h2 := hboundold c dc hcold
              omega
            · omega
          · left
            rw [happ]
            exact List.mem_append.2 (Or.inl hmrest)
        · right
          intro c hc hcids
          rcases hcl c hc hcids with ⟨dc, hdc, hle⟩
          exact ⟨dc, hext c dc hdc, hle⟩
      · left
        rw [happ]
        exact List.mem_append.2 (Or.inr hmem)
  · exact hmeas

/-- The invariant holds for the initial queue `[src]` and depth map
`{ [src]: 0 }`. -/
theorem bfs_inv_init (children : String → List String) (ids : List String) (src : String) :
    BfsInv children ids src [src] (fun s => if s = src then some 0 else none) := by
  constructor
  · intro x hx
    rw [List.mem_singleton] at hx
    rw [hx]
    simp
  · simp
  · intro x hx
    by_cases hxs : x = src
    · exact Or.inl hxs
    · simp [hxs] at hx
  · intro x dx hdx
    by_cases hxs : x = src
    · rw [hxs] at hdx ⊢
      simp at hdx
      subst hdx
      exact ReachN.refl
    · simp [hxs] at hdx
  · simp
  · intro x dx y hdx hhead
    have hy : y = src := (Option.some.inj hhead).symm
    rw [hy]
    by_cases hxs : x = src
    · rw [hxs] at hdx
      simp at hdx ⊢
      omega
    · simp [hxs] at hdx
  · intro m dm hdm
    by_cases hms : m = src
    · rw [hms]
      exact Or.inl (List.mem_singleton.2 rfl)
    · simp [hms] at hdm

/-- Running the BFS loop with enough fuel from any invariant state
yields a final depth map satisfying `BfsFinal`. -/
theorem bfsLoop_final (children : String → List String) (ids : List String) (src : String) :
    ∀ (fuel : Nat) (queue : List String) (depth : String → Option Nat),
      queue.length + 2 * unseenCount ids depth < fuel →
      BfsInv children ids src queue depth →
      BfsFinal children ids src (bfsLoop children ids fuel queue depth) := by
  intro fuel
  induction fuel with
  | zero =>
    intro queue depth h
    exact absurd h (Nat.not_lt_zero _)
  | succ n ih =>
    intro queue depth hmeas hinv
    cases queue with
    | nil =>
      rw [bfsLoop_nil]
      refine ⟨hinv.srcZero, hinv.dom, hinv.sound, ?_⟩
      intro m dm hdm c hc hcids
      rcases hinv.closed m dm hdm with hmem | hcl
      · cases hmem
      · exact hcl c hc hcids
    | cons cur rest =>
      have hcurdef : (depth cur).isSome := hinv.qlab cur (List.mem_cons_self _ _)
      rcases Option.isSome_iff_exists.1 hcurdef with ⟨d, hd⟩
      have hgetd : (depth cur).getD 0 = d := by rw [hd]; rfl
      rw [bfsLoop_cons, hgetd]
      rcases bfs_inv_step children ids src cur rest depth d hd hinv with ⟨hinv2, hm2⟩
      apply ih _ _ ?_ hinv2
      simp only [List.length_cons] at hmeas
      omega

/-- The depth map computed by `buildLayout`'s BFS satisfies the final
characterisation (the chosen fuel covers every run). -/
theorem depthFrom_final (g : Graph) (srcId : String) :
    BfsFinal (childrenOf g.edges) (nodeIds g) srcId (depthFrom g srcId) := by
  unfold depthFrom
  apply bfsLoop_final _ _ _ _ _ _ ?_ (bfs_inv_init _ _ _)
  have hle : unseenCount (nodeIds g) (fun s => if s = srcId then some 0 else none) ≤
      (nodeIds g).dedup.length := by
    unfold unseenCount
    exact List.length_filter_le _ _
  unfold bfsFuel
  simp only [List.length_singleton]
  omega

/-- From the final state, every node with a path of length `k` carries a
label of at most `k`. -/
theorem final_reach_label {children : String → List String} {ids : List String} {src : String}
    {depth : String → Option Nat} (hf : BfsFinal children ids src depth) :
    ∀ (x : String) (k : Nat), ReachN children ids src x k →
      ∃ dx, depth x = some dx ∧ dx ≤ k := by
  intro x k h
  induction h with
  | refl => exact ⟨0, hf.srcZero, Nat.le_refl 0⟩
  | tail hr hc hi ih =>
    rcases ih with ⟨dm, hdm, hdmle⟩
    rcases hf.closedAll _ dm hdm _ hc hi with ⟨dc, hdc, hdcle⟩
    exact ⟨dc, hdc, by omega⟩

/-- The final depth map labels a node with `d` exactly when `d` is the
length of a shortest path to it. -/
theorem final_label_iff {children : String → List String} {ids : List String} {src : String}
    {depth : String → Option Nat} (hf : BfsFinal children ids src depth)
    (x : String) (dx : Nat) :
    depth x = some dx ↔
      (ReachN children ids src x dx ∧ ∀ k, ReachN children ids src x k → dx ≤ k) := by
  constructor
  · intro hdx
    refine ⟨hf.sound x dx hdx, ?_⟩
    intro k hk
    rcases final_reach_label hf x k hk with ⟨dx2, hdx2, hle⟩
    rw [hdx] at hdx2
    have := Option.some.inj hdx2
    omega
  · rintro ⟨hreach, hmin⟩
    rcases final_reach_label hf x dx hreach with ⟨dx2, hdx2, hle⟩
    have hge : dx ≤ dx2 := hmin dx2 (hf.sound x dx2 hdx2)
    have heq : dx2 = dx := le_antisymm hle hge
    rw [← heq]
    exact hdx2

/-- The final depth map is defined exactly on the reachable nodes. -/
theorem final_isSome_iff {children : String → List String} {ids : List String} {src : String}
    {depth : String → Option Nat} (hf : BfsFinal children ids src depth) (x : String) :
    (depth x).isSome = true ↔ ∃ k, ReachN children ids src x k := by
  constructor
  · intro hx
    rcases Option.isSome_iff_exists.1 hx with ⟨dx, hdx⟩
    exact ⟨dx, hf.sound x dx hdx⟩
  · rintro ⟨k, hk⟩
    rcases final_reach_label hf x k hk with ⟨dx, hdx, _⟩
    rw [hdx]
    rfl

/-- C1: for every graph with a source, the BFS depth map assigns to each
node exactly the shortest hop-count of a directed path from the source
over the kept edges (source at depth 0), and a node appears in the
reachable node list exactly when it is an input node with a directed
path from the source.  Depth values are fully determined by shortest
distance, so the BFS first-discovery order can influence no output
beyond this (no other tie-break exists). -/
theorem claim_C1 (g : Graph) (s : Node) (hs : g.source = some s) :
    depthFrom g s.id s.id = some 0 ∧
    (∀ (x : String) (d : Nat),
      depthFrom g s.id x = some d ↔
        (ReachN (childrenOf g.edges) (nodeIds g) s.id x d ∧
          ∀ k, ReachN (childrenOf g.edges) (nodeIds g) s.id x k → d ≤ k)) ∧
    (∀ n : Node, n ∈ visibleNodesOf g s.id ↔
      n ∈ g.nodes ∧ ∃ k, ReachN (childrenOf g.edges) (nodeIds g) s.id n.id k) := by
  have hf := depthFrom_final g s.id
  refine ⟨hf.srcZero, fun x d => final_label_iff hf x d, ?_⟩
  intro n
  unfold visibleNodesOf
  rw [List.mem_filter]
  constructor
  · rintro ⟨hmem, hsome⟩
    exact ⟨hmem, (final_isSome_iff hf n.id).1 hsome⟩
  · rintro ⟨hmem, hreach⟩
    exact ⟨hmem, (final_isSome_iff hf n.id).2 hreach⟩

/-- C1 witness: the characterisation applied to the star graph. -/
theorem claim_C1_witness : depthFrom graphStar "src" "src" = some 0 :=
  (claim_C1 graphStar ⟨"src"⟩ rfl).1

/-- C7: an edge with a missing endpoint, or whose target id is neither a
known node id nor the source id, never appears among the reachable
edges; the reduction never raises when the source is present; and on the
concrete dangling-edge example (`nodes [src, n1]` with `src` the source,
edges `[src→n1, n1→ghost]`) the reachable nodes are `[n1]` and the
reachable edges are `[src→n1]`. -/
theorem claim_C7 (g : Graph) (s : Node) (e : Edge) (hs : g.source = some s)
    (he : e ∈ g.edges)
    (hdrop : e.fromId = none ∨ e.toId = none ∨
      ∃ t, e.toId = some t ∧ t ∉ nodeIds g ∧ t ≠ s.id) :
    e ∉ visibleEdgesOf g s.id ∧
    (∃ L, buildLayout (some g) = Except.ok L) ∧
    visibleNodesOf graphDangling "src" = [⟨"n1"⟩] ∧
    visibleEdgesOf graphDangling "src" = [⟨some "src", some "n1"⟩] := by
  have hf := depthFrom_final g s.id
  refine ⟨?_, ⟨⟨positionsMap g s.id, s :: visibleNodesOf g s.id, allNodeMapOf g s.id s,
    visibleEdgesOf g s.id⟩, by simp [buildLayout, hs]⟩, by decide, by decide⟩
  intro hmem
  unfold visibleEdgesOf at hmem
  rcases List.mem_filter.1 hmem with ⟨_, hpred⟩
  rcases hdrop with hfrom | hto | ⟨t, ht, htn, hts⟩
  · rw [hfrom] at hpred
    simp [idReachable] at hpred
  · rw [hto] at hpred
    simp [idReachable] at hpred
  · rw [ht] at hpred
    rw [Bool.and_eq_true] at hpred
    rcases hpred with ⟨_, hpred2⟩
    have hsome : (depthFrom g s.id t).isSome = true := hpred2
    rcases hf.dom t hsome with hsrc | hids
    · exact hts hsrc
    · exact htn hids

/-- C7 witness: the dangling edge of the example is dropped. -/
theorem claim_C7_witness :
    (⟨some "n1", some "ghost"⟩ : Edge) ∉ visibleEdgesOf graphDangling "src" :=
  (claim_C7 graphDangling ⟨"src"⟩ ⟨some "n1", some "ghost"⟩ rfl (by decide)
    (Or.inr (Or.inr ⟨"ghost", rfl, by decide, by decide⟩))).1

/-! ### Layout lemmas -/

/-- A falsy (empty-string) id never gets adjacency entries: the builder
skips edges with a falsy `from`. -/
theorem childrenOf_falsy (edges : List Edge) : childrenOf edges "" = [] := by
  unfold childrenOf
  rw [List.filterMap_eq_nil_iff]
  intro e _
  obtain ⟨ef, et⟩ := e
  cases ef with
  | none => rfl
  | some f =>
    cases et with
    | none => rfl
    | some t =>
      have : ¬(f ≠ "" ∧ t ≠ "" ∧ f = "") := fun h => h.1 h.2.2
      simp only [if_neg this]

/-- A BFS from the empty source id labels nothing beyond the source key:
all of its outgoing edges are dropped as falsy. -/
theorem depthFrom_falsy (g : Graph) (x : String) :
    depthFrom g "" x = if x = "" then some (0 : Nat) else none := by
  obtain ⟨m, hm⟩ : ∃ m, bfsFuel g = m + 1 + 1 :=
    ⟨2 * (nodeIds g).dedup.length, by unfold bfsFuel; omega⟩
  have h3 : enqueueChildren (nodeIds g)
      (((fun s => if s = "" then some (0 : Nat) else none) "").getD 0 + 1)
      (childrenOf g.edges "") []
      (fun s => if s = "" then some (0 : Nat) else none) =
      ([], fun s => if s = "" then some (0 : Nat) else none) := by
    rw [childrenOf_falsy]
    rfl
  unfold depthFrom
  rw [hm, bfsLoop_cons, h3]
  show bfsLoop (childrenOf g.edges) (nodeIds g) (m + 1) []
    (fun s => if s = "" then some (0 : Nat) else none) x = _
  rw [bfsLoop_nil]

/-- Ids outside a ring are untouched by its placement pass. -/
theorem placeRing_notmem (d count : Nat) :
    ∀ (idsL : List String) (i : Nat) (acc : String → Option Pos) (x : String),
      x ∉ idsL → placeRing d count i idsL acc x = acc x := by
  intro idsL
  induction idsL with
  | nil => intro i acc x _; rfl
  | cons a l ih =>
    intro i acc x hx
    have hxa : x ≠ a := fun h => hx (h ▸ List.mem_cons_self a l)
    have hxl : x ∉ l := fun h => hx (List.mem_cons_of_mem _ h)
    show placeRing d count (i + 1) l (setPos acc a (ringPos d count i)) x = acc x
    rw [ih (i + 1) _ x hxl]
    unfold setPos
    simp [hxa]

/-- The `j`-th id of a duplicate-free ring receives the `j`-th ring
position (offset by the starting index). -/
theorem placeRing_get (d count : Nat) :
    ∀ (idsL : List String) (j i : Nat) (acc : String → Option Pos) (x : String)
      (hnd : idsL.Nodup) (hj : j < idsL.length),
      idsL.get ⟨j, hj⟩ = x →
      placeRing d count i idsL acc x = some (ringPos d count (i + j)) := by
  intro idsL
  induction idsL with
  | nil =>
    intro j i acc x _ hj
    exact absurd hj (Nat.not_lt_zero _)
  | cons a l ih =>
    intro j i acc x hnd hj hx
    cases j with
    | zero =>
      have hxa : a = x := hx
      show placeRing d count (i + 1) l (setPos acc a (ringPos d count i)) x =
        some (ringPos d count (i + 0))
      have hanl : a ∉ l := (List.nodup_cons.1 hnd).1
      rw [placeRing_notmem d count l (i + 1) _ x (by rw [← hxa]; exact hanl)]
      unfold setPos
      rw [if_pos hxa.symm]
      simp
    | succ j2 =>
      show placeRing d count (i + 1) l (setPos acc a (ringPos d count i)) x =
        some (ringPos d count (i + (j2 + 1)))
      have hj2 : j2 < l.length := by simpa using hj
      have hgx : l.get ⟨j2, hj2⟩ = x := hx
      rw [ih j2 (i + 1) (setPos acc a (ringPos d count i)) x (List.nodup_cons.1 hnd).2 hj2 hgx]
      have harith : i + 1 + j2 = i + (j2 + 1) := by omega
      rw [harith]

/-- A conditional `filterMap` extracting `f` is a sublist of the `map`. -/
theorem filterMap_if_sublist {α : Type} (f : α → String) (P : α → Prop) [DecidablePred P] :
    ∀ (l : List α),
      List.Sublist (l.filterMap fun n => if P n then some (f n) else none) (l.map f) := by
  intro l
  induction l with
  | nil => simp
  | cons a l ih =>
    rw [List.map_cons]
    by_cases hP : P a
    · rw [List.filterMap_cons_some (by rw [if_pos hP])]
      exact ih.cons₂ (f a)
    · rw [List.filterMap_cons_none (by rw [if_neg hP])]
      exact ih.cons (f a)

/-- Ring id lists inherit duplicate-freedom from the node id list. -/
theorem ringIds_nodup (g : Graph) (srcId : String) (hnd : (g.nodes.map Node.id).Nodup)
    (d : Nat) : (ringIds g srcId d).Nodup := by
  apply hnd.sublist
  have h1 : List.Sublist (ringIds g srcId d) ((visibleNodesOf g srcId).map Node.id) :=
    filterMap_if_sublist Node.id (fun n => depthFrom g srcId n.id = some d) _
  have h2 : List.Sublist ((visibleNodesOf g srcId).map Node.id) (g.nodes.map Node.id) :=
    (List.filter_sublist _).map Node.id
  exact h1.trans h2

/-- Membership in a ring determines the depth of the id. -/
theorem ringIds_mem_depth {g : Graph} {srcId : String} {d : Nat} {x : String}
    (hx : x ∈ ringIds g srcId d) : depthFrom g srcId x = some d := by
  rcases List.mem_filterMap.1 hx with ⟨n, _, hcond⟩
  by_cases h : depthFrom g srcId n.id = some d
  · rw [if_pos h] at hcond
    rw [← Option.some.inj hcond]
    exact h
  · rw [if_neg h] at hcond
    cases hcond

/-- Membership in a ring contributes its depth to the collected list. -/
theorem ringDepths_of_ringIds {g : Graph} {srcId : String} {d : Nat} {x : String}
    (hx : x ∈ ringIds g srcId d) : d ∈ ringDepths g srcId := by
  rcases List.mem_filterMap.1 hx with ⟨n, hn, hcond⟩
  by_cases h : depthFrom g srcId n.id = some d
  · exact List.mem_filterMap.2 ⟨n, hn, h⟩
  · rw [if_neg h] at hcond
    cases hcond

theorem mem_le_foldr_max : ∀ (l : List Nat) (d : Nat), d ∈ l → d ≤ l.foldr max 0 := by
  intro l
  induction l with
  | nil => intro d h; cases h
  | cons a l ih =>
    intro d h
    rcases List.mem_cons.1 h with rfl | hl
    · exact le_max_left _ _
    · exact le_trans (ih d hl) (le_max_right _ _)

/-- Every collected depth occurs among the sorted ring keys. -/
theorem ringKeys_mem {g : Graph} {srcId : String} {d : Nat}
    (hd : d ∈ ringDepths g srcId) : d ∈ ringKeys g srcId := by
  unfold ringKeys
  rw [List.mem_filter]
  refine ⟨List.mem_range.2 ?_, by simpa using hd⟩
  have := mem_le_foldr_max _ d hd
  omega

theorem ringKeys_nodup (g : Graph) (srcId : String) : (ringKeys g srcId).Nodup :=
  (List.nodup_range _).filter _

/-- An id belonging to none of the processed rings keeps its base
position. -/
theorem foldPlace_notmem (g : Graph) (srcId : String) (x : String) :
    ∀ (keys : List Nat) (acc : String → Option Pos),
      (∀ k ∈ keys, x ∉ ringIds g srcId k) →
      (keys.foldl
        (fun acc d => placeRing d (ringIds g srcId d).length 0 (ringIds g srcId d) acc)
        acc) x = acc x := by
  intro keys
  induction keys with
  | nil => intro acc _; rfl
  | cons k keys ih =>
    intro acc hnot
    rw [List.foldl_cons, ih _ fun k2 hk2 => hnot k2 (List.mem_cons_of_mem _ hk2)]
    exact placeRing_notmem _ _ _ _ _ _ (hnot k (List.mem_cons_self _ _))

/-- Processing the rings in any duplicate-free key order that contains
`d` assigns the `j`-th id of ring `d` its ring position. -/
theorem foldPlace_mem (g : Graph) (srcId : String) (x : String) (d j : Nat)
    (hj : j < (ringIds g srcId d).length) (hget : (ringIds g srcId d).get ⟨j, hj⟩ = x)
    (hndids : (ringIds g srcId d).Nodup) :
    ∀ (keys : List Nat) (acc : String → Option Pos), keys.Nodup → d ∈ keys →
      (∀ k ∈ keys, k ≠ d → x ∉ ringIds g srcId k) →
      (keys.foldl
        (fun acc d2 => placeRing d2 (ringIds g srcId d2).length 0 (ringIds g srcId d2) acc)
        acc) x = some (ringPos d (ringIds g srcId d).length j) := by
  intro keys
  induction keys with
  | nil =>
    intro acc _ hd
    cases hd
  | cons k keys ih =>
    intro acc hnd hdmem hnot
    have hknotin : k ∉ keys := (List.nodup_cons.1 hnd).1
    rcases List.mem_cons.1 hdmem with hdk | hdkeys
    · -- this ring is ring d : place x, later rings never touch it
      subst hdk
      rw [List.foldl_cons]
      have hkeysnot : ∀ k2 ∈ keys, x ∉ ringIds g srcId k2 := by
        intro k2 hk2
        have hk2d : k2 ≠ d := fun h => hknotin (h ▸ hk2)
        exact hnot k2 (List.mem_cons_of_mem _ hk2) hk2d
      rw [foldPlace_notmem g srcId x keys _ hkeysnot]
      rw [placeRing_get d (ringIds g srcId d).length (ringIds g srcId d) j 0 acc x
        hndids hj hget]
      simp
    · -- a different ring first : x is untouched, recurse
      have hkd : k ≠ d := fun h => hknotin (h ▸ hdkeys)
      rw [List.foldl_cons]
      apply ih _ (List.nodup_cons.1 hnd).2 hdkeys
      intro k2 hk2 hk2d
      exact hnot k2 (List.mem_cons_of_mem _ hk2) hk2d

/-- The position of the `j`-th id of ring `d` in the full layout map. -/
theorem positionsMap_ring (g : Graph) (srcId : String) (hnd : (g.nodes.map Node.id).Nodup)
    (d j : Nat) (x : String) (hj : j < (ringIds g srcId d).length)
    (hget : (ringIds g srcId d).get ⟨j, hj⟩ = x) :
    positionsMap g srcId x = some (ringPos d (ringIds g srcId d).length j) := by
  unfold positionsMap
  have hxmem : x ∈ ringIds g srcId d := hget ▸ List.get_mem _ _ _
  have hdx : depthFrom g srcId x = some d := ringIds_mem_depth hxmem
  apply foldPlace_mem g srcId x d j hj hget (ringIds_nodup g srcId hnd d) _ _
    (ringKeys_nodup g srcId) (ringKeys_mem (ringDepths_of_ringIds hxmem))
  intro k _ hkd hxk
  have := ringIds_mem_depth hxk
  rw [hdx] at this
  exact hkd (Option.some.inj this).symm

/-- If the uploaded marker is in no ring, its base position survives. -/
theorem positionsMap_uploaded (g : Graph) (srcId : String)
    (h : ∀ k ∈ ringKeys g srcId, "__uploaded__" ∉ ringIds g srcId k) :
    positionsMap g srcId "__uploaded__" = some uploadedPos := by
  unfold positionsMap
  rw [foldPlace_notmem g srcId _ _ _ h]
  unfold setPos
  simp

/-- The squared distance of a ring position's center from the canvas
center is the squared ring radius `(d + 1) * RING_SPACING`. -/
theorem ringPos_dist (d count i : Nat) :
    ((ringPos d count i).cx - CENTER_X)^2 + ((ringPos d count i).cy - CENTER_Y)^2 =
      (((d : ℝ) + 1) * RING_SPACING)^2 := by
  have hcx : (ringPos d count i).cx = CENTER_X + ((d : ℝ) + 1) * RING_SPACING *
      Real.cos ((d : ℝ) * 0.4 + (i : ℝ) * (2 * Real.pi / (count : ℝ)) - Real.pi / 2) := rfl
  have hcy : (ringPos d count i).cy = CENTER_Y + ((d : ℝ) + 1) * RING_SPACING *
      Real.sin ((d : ℝ) * 0.4 + (i : ℝ) * (2 * Real.pi / (count : ℝ)) - Real.pi / 2) := rfl
  rw [hcx, hcy]
  have h : ∀ θ : ℝ,
      (CENTER_X + ((d : ℝ) + 1) * RING_SPACING * Real.cos θ - CENTER_X)^2 +
        (CENTER_Y + ((d : ℝ) + 1) * RING_SPACING * Real.sin θ - CENTER_Y)^2 =
      (((d : ℝ) + 1) * RING_SPACING)^2 * ((Real.sin θ)^2 + (Real.cos θ)^2) := by
    intro θ
    ring
  rw [h, Real.sin_sq_add_cos_sq, mul_one]

/-- C3 counterexample: a graph whose `source` is missing does not yield
an empty result — `buildLayout` reads `source.id` off `undefined` and
throws (modelled as `Except.error`), contradicting the claim that no
error is raised. -/
theorem claim_C3_counterexample :
    buildLayout (some graphNoSource) = Except.error () := rfl

/-- C3 (amended): only a null/undefined `spreadData` yields the empty
result; a graph missing `source` raises a TypeError; and a graph whose
`source.id` is falsy proceeds without error but produces a non-empty
position map (it still contains the uploaded marker's position), with no
reachable node or depth entry beyond the falsy source key itself. -/
theorem claim_C3 (g : Graph) (s : Node) (hs : g.source = some s) (hid : s.id = "") :
    buildLayout none = Except.ok emptyLayout ∧
    (∀ g2 : Graph, g2.source = none → buildLayout (some g2) = Except.error ()) ∧
    (∃ L, buildLayout (some g) = Except.ok L ∧
      L.positions "__uploaded__" = some uploadedPos) ∧
    (∀ n ∈ visibleNodesOf g s.id, n.id = "") ∧
    (∀ x : String, x ≠ "" → depthFrom g s.id x = none) := by
  refine ⟨rfl, ?_, ?_, ?_, ?_⟩
  · intro g2 h2
    simp [buildLayout, h2]
  · refine ⟨⟨positionsMap g s.id, s :: visibleNodesOf g s.id, allNodeMapOf g s.id s,
      visibleEdgesOf g s.id⟩, by simp [buildLayout, hs], ?_⟩
    show positionsMap g s.id "__uploaded__" = some uploadedPos
    apply positionsMap_uploaded
    intro k _ hmem
    have hdep := ringIds_mem_depth hmem
    rw [hid, depthFrom_falsy] at hdep
    simp at hdep
  · intro n hn
    rcases List.mem_filter.1 hn with ⟨_, hsome⟩
    by_contra hne
    rw [hid, depthFrom_falsy] at hsome
    simp [hne] at hsome
  · intro x hx
    rw [hid, depthFrom_falsy]
    simp [hx]

/-- C3 witness: the amended statement at the falsy-source graph. -/
theorem claim_C3_witness : buildLayout none = Except.ok emptyLayout :=
  (claim_C3 graphFalsySource ⟨""⟩ rfl rfl).1

/-- C2 counterexample: in the star graph (four children at depth 1) the
first child's position lies at squared distance `520² = (2 × 260)²` from
the canvas center, not `260²` — the ring radius is
`(depth + 1) × ringSpacing`, not `depth × ringSpacing`. -/
theorem claim_C2_counterexample :
    positionsMap graphStar "src" "n1" =
      some (ringPos 1 (ringIds graphStar "src" 1).length 0) ∧
    ((ringPos 1 (ringIds graphStar "src" 1).length 0).cx - CENTER_X)^2 +
        ((ringPos 1 (ringIds graphStar "src" 1).length 0).cy - CENTER_Y)^2 ≠
      RING_SPACING^2 := by
  refine ⟨positionsMap_ring graphStar "src" (by decide) 1 0 "n1" (by decide) (by decide), ?_⟩
  rw [ringPos_dist]
  unfold RING_SPACING
  norm_num

/-- C2 (amended): every id at index `j` of the depth-`d` ring (node ids
duplicate-free) is placed at angle `d × 0.4 + j × (2π / n) − π/2` on the
circle of radius `(d + 1) × ringSpacing` around the canvas center — one
ring spacing further out than the claimed `d × ringSpacing` — with the
top-left anchor offset by half the node box; in particular its center's
squared distance from the canvas center is `((d + 1) × ringSpacing)²`. -/
theorem claim_C2 (g : Graph) (s : Node) (hs : g.source = some s)
    (hnd : (g.nodes.map Node.id).Nodup) (d j : Nat) (x : String)
    (hj : j < (ringIds g s.id d).length)
    (hget : (ringIds g s.id d).get ⟨j, hj⟩ = x) :
    positionsMap g s.id x = some
      ⟨CENTER_X + ((d : ℝ) + 1) * RING_SPACING *
          Real.cos ((d : ℝ) * 0.4 + (j : ℝ) * (2 * Real.pi / ((ringIds g s.id d).length : ℝ))
            - Real.pi / 2) - NODE_W / 2,
        CENTER_Y + ((d : ℝ) + 1) * RING_SPACING *
          Real.sin ((d : ℝ) * 0.4 + (j : ℝ) * (2 * Real.pi / ((ringIds g s.id d).length : ℝ))
            - Real.pi / 2) - NODE_H / 2,
        CENTER_X + ((d : ℝ) + 1) * RING_SPACING *
          Real.cos ((d : ℝ) * 0.4 + (j : ℝ) * (2 * Real.pi / ((ringIds g s.id d).length : ℝ))
            - Real.pi / 2),
        CENTER_Y + ((d : ℝ) + 1) * RING_SPACING *
          Real.sin ((d : ℝ) * 0.4 + (j : ℝ) * (2 * Real.pi / ((ringIds g s.id d).length : ℝ))
            - Real.pi / 2)⟩ ∧
    ∀ p, positionsMap g s.id x = some p →
      (p.cx - CENTER_X)^2 + (p.cy - CENTER_Y)^2 = (((d : ℝ) + 1) * RING_SPACING)^2 := by
  have h := positionsMap_ring g s.id hnd d j x hj hget
  constructor
  · rw [h]
    rfl
  · intro p hp
    rw [h] at hp
    rw [← Option.some.inj hp]
    exact ringPos_dist d (ringIds g s.id d).length j

/-- C2 witness: the ring-radius identity for the first depth-1 child of
the star graph. -/
theorem claim_C2_witness :
    ((ringPos 1 (ringIds graphStar "src" 1).length 0).cx - CENTER_X)^2 +
      ((ringPos 1 (ringIds graphStar "src" 1).length 0).cy - CENTER_Y)^2 =
      (((1 : ℕ) : ℝ) + 1) * RING_SPACING * ((((1 : ℕ) : ℝ) + 1) * RING_SPACING) := by
  have h := (claim_C2 graphStar ⟨"src"⟩ rfl (by decide) 1 0 "n1" (by decide) (by decide)).2
    (ringPos 1 (ringIds graphStar "src" 1).length 0)
    (positionsMap_ring graphStar "src" (by decide) 1 0 "n1" (by decide) (by decide))
  rw [← pow_two]
  exact h

end SpreadCore
